import Mathlib

/-! Fold construction of the ordered-boosting learner (`catboost/libs/algo/fold.h`).

A shallow embedding of `SelectMinBatchSize`, `TFold` with its methods (the statistic
tables, target assignment, checkpoint of the `Approx` buffers), `InitFromBaseline`,
`BuildLearnFold` and `BuildAveragingFold`, followed by the properties of the
specification that were checked against it.

Conventions of the embedding.

* `yvector<T>` is a `List`; `v[i] = x` is `List.set`, `v[i]` is `List.getD`.  An index
  outside the vector is undefined behaviour in the C++; the embedding writes nothing
  and reads the default value there, and the theorems state the cells of the fold they
  speak about as `some _`, that is, as cells that exist.
* `int` is an exact integer: sample counts, block sizes and dimensions are `Nat`,
  `MixCount`, `TailFinish` and the loop variable `leftPartLen` are `Int`.  Signed
  overflow and a division by a zero block size are undefined behaviour in C++, so the
  embedding describes the runs in which `LearnSampleCount + permuteBlockSize` stays
  inside the `int` range and a shuffle is asked for with a block size of at least one.
* A `double` or `float` that is only stored, copied, compared and serialised is its
  bit pattern, a `Nat`; the value-initialised `0.0` is the pattern `0`.
* The growth multiplier is the rational value of the `double` argument.  The product
  `leftPartLen * multiplier` of fold.h:196 is a `double`: the exact product rounded to
  the nearest double, ties to the even mantissa (IEEE 754 binary64, 53 bits, subnormal
  below `2 ^ (-1022)`); `ceil` and `Min` are then exact.  The conversion of the `int`
  to a `double` is exact; a product beyond the largest finite double is not given a
  separate value (`Min` with the sample count returns the sample count either way).
* The `while` loop of `BuildLearnFold` takes a fuel argument; running out of fuel is
  `none`.
* The hash map `TOnlineCTRHash` is an association list in insertion order; the methods
  of `TFold` keep its keys pairwise different.  A `const` method is a function of the
  fold that returns no new fold.
-/

namespace Fold

/-- Bit pattern of a `double` held in a buffer. -/
abbrev TDouble := Nat

/-- Bit pattern of a `float` (targets and weights). -/
abbrev TFloat := Nat

/-- Function `SelectMinBatchSize` (fold.h:15-17): `Min<int>(100, sampleCount / 50)` with the
truncating division of C++. -/
def SelectMinBatchSize (sampleCount : Int) : Int :=
  if sampleCount > 500 then min 100 (Int.tdiv sampleCount 50) else 1

/-- Modelled from the spec: `TTargetClassifier` (target_classifier.h is not part of the
sources), the collaborator that "exposes `classify(value) → classId` and
`classCount() → int`". -/
structure TTargetClassifier where
  GetTargetClass : TFloat → Int
  GetClassesCount : Int

/-- Modelled from the spec: `TTrainData` (train_data.h is not part of the sources), the
dataset that "exposes learn sample count, total sample count, per-sample target,
optional per-sample weight, and optional per-dimension baseline predictions in original
order". `Baseline` is indexed `[sample][dim]`, as `InitFromBaseline` reads it. -/
structure TTrainData where
  LearnSampleCount : Nat
  SampleCount : Nat
  Target : List TFloat
  Weights : List TFloat
  Baseline : List (List TDouble)

/-- Modelled from the spec: the accessor `data.GetSampleCount()` of `TTrainData`, the
"total sample count" of learn and held-out samples together. -/
def TTrainData.GetSampleCount (data : TTrainData) : Nat := data.SampleCount

/-- Modelled from the spec: `TProjection` (projection.h is not part of the sources), a
"Feature Combination"; only the two feature lists counted by `HasSingleFeature` are
kept. -/
structure TProjection where
  BinFeatures : List (Int × Int)
  CatFeatures : List Int
deriving DecidableEq

/-- Modelled from the spec: `TOnlineCTR` (online_ctr.h is not part of the sources), the
"opaque per-Feature-Combination value with an `isEmpty()` predicate"; the predicate is
`Feature.empty()`. -/
structure TOnlineCTR where
  Feature : List (List Nat) := []
deriving DecidableEq

/-- Type `TOnlineCTRHash`: the hash map from projections to records, as an association
list. -/
abbrev TOnlineCTRHash := List (TProjection × TOnlineCTR)

/-- Structure `TFold::TMixTail` (fold.h:20-34); the constructor sets both counters to
`0`. -/
structure TMixTail where
  Approx : List (List TDouble) := []
  Derivatives : List (List TDouble) := []
  WeightedDer : List (List TDouble) := []
  MixCount : Int := 0
  TailFinish : Int := 0
deriving DecidableEq

/-- Structure `TFold` (fold.h:19-135), default-constructed empty. -/
structure TFold where
  LearnWeights : List TFloat := []
  LearnPermutation : List Nat := []
  MixTailArr : List TMixTail := []
  LearnTarget : List TFloat := []
  SampleWeights : List TFloat := []
  LearnTargetClass : List (List Int) := []
  TargetClassesCount : List Int := []
  EffectiveDocCount : Nat := 0
  OnlineSingleCtrs : TOnlineCTRHash := []
  OnlineCTR : TOnlineCTRHash := []
deriving DecidableEq

/-- Method `TFold::AssignPermuted` (fold.h:94-102): the destination is resized to the length
of the permutation and position `z` receives `source[LearnPermutation[z]]`. -/
def TFold.AssignPermuted (ff : TFold) (source : List TFloat) : List TFloat :=
  (List.range ff.LearnPermutation.length).map
    (fun z => source.getD (ff.LearnPermutation.getD z 0) 0)

/-- Method `TFold::AssignTarget` (fold.h:78-92): the permuted targets, then one row of
class ids and one class count for every classifier. -/
def TFold.AssignTarget (ff : TFold) (target : List TFloat)
    (targetClassifiers : List TTargetClassifier) : TFold :=
  let ff := { ff with LearnTarget := ff.AssignPermuted target }
  let learnSampleCount := ff.LearnPermutation.length
  { ff with
    LearnTargetClass := targetClassifiers.map (fun c =>
      (List.range learnSampleCount).map (fun z => c.GetTargetClass (ff.LearnTarget.getD z 0)))
    TargetClassesCount := targetClassifiers.map (fun c => c.GetClassesCount) }

/-- The read `baseline[initialIdx][dim]` of `InitFromBaseline`. -/
def baselineAt (baseline : List (List TDouble)) (initialIdx dim : Nat) : TDouble :=
  (baseline.getD initialIdx []).getD dim 0

/-- The write `(*approx)[dim][docId] = value`. -/
def setApprox (approx : List (List TDouble)) (dim docId : Nat) (value : TDouble) :
    List (List TDouble) :=
  approx.set dim ((approx.getD dim []).set docId value)

/-- Body of the outer loop of `InitFromBaseline` (fold.h:144-150) for one `docId`. -/
def initDoc (baseline : List (List TDouble)) (learnPermutation : List Nat)
    (approx : List (List TDouble)) (docId : Nat) : List (List TDouble) :=
  let learnSampleCount := learnPermutation.length
  let approxDimension := approx.length
  let initialIdx := if docId < learnSampleCount then learnPermutation.getD docId 0 else docId
  (List.range approxDimension).foldl
    (fun a dim => setApprox a dim docId (baselineAt baseline initialIdx dim)) approx

/-- Function `InitFromBaseline` (fold.h:137-152): `docId` runs over
`[beginIdx, endIdx)`. -/
def InitFromBaseline (beginIdx endIdx : Int) (baseline : List (List TDouble))
    (learnPermutation : List Nat) (approx : List (List TDouble)) : List (List TDouble) :=
  (List.range' beginIdx.toNat (endIdx.toNat - beginIdx.toNat)).foldl
    (initDoc baseline learnPermutation) approx

/-- Modelled from the spec: `TRestorableFastRng64` with `Shuffle` (restorable_rng.h and
util/random/shuffle.h are not part of the sources), "a deterministic, restorable
generator supporting uniform shuffling of a sequence": the generator state is the
rearrangement it makes `Shuffle` apply. -/
abbrev TRestorableFastRng64 := List Nat → List Nat

/-- Modelled from the spec: the call `Shuffle(begin, end, rand)` on a vector of indices
(util/random/shuffle.h is not part of the sources), the "external random-shuffle
primitive driven by a supplied deterministic random source". -/
def Shuffle (v : List Nat) (rand : TRestorableFastRng64) : List Nat := rand v

/-- Modelled from the spec: what the shuffle primitive guarantees, "a uniformly random
permutation": the result is a rearrangement of its argument. -/
def ShufflePermutes (rand : TRestorableFastRng64) : Prop := ∀ v, (rand v).Perm v

/-- The vector `yvector<double>(n)` repeated `approxDimension` times: the value built by
`resize(approxDimension, yvector<double>(n))` on an empty vector. -/
def zeroBuffer (approxDimension n : Nat) : List (List TDouble) :=
  List.replicate approxDimension (List.replicate n 0)

/-- The test `!data.Baseline[0].empty()`. -/
def hasBaseline (data : TTrainData) : Bool := !(data.Baseline.getD 0 []).isEmpty

/-- Body of the block loop of `BuildLearnFold` (fold.h:176-181) for one `i`; the state
is `currentIdx` and the permutation. -/
def blockStep (learnSampleCount permuteBlockSize : Nat) (blockedPermute : List Nat)
    (st : Nat × List Nat) (i : Nat) : Nat × List Nat :=
  let blockStartIdx := blockedPermute.getD i 0 * permuteBlockSize
  let blockEndIndx := min (blockStartIdx + permuteBlockSize) learnSampleCount
  let perm := (List.range' blockStartIdx (blockEndIndx - blockStartIdx)).foldl
    (fun p j => p.set (st.1 + j - blockStartIdx) j) st.2
  (st.1 + (blockEndIndx - blockStartIdx), perm)

/-- The permutation stage of `BuildLearnFold` (fold.h:163-184). -/
def learnPermutation (learnSampleCount : Nat) (shuffle : Bool) (permuteBlockSize : Nat)
    (rand : TRestorableFastRng64) : List Nat :=
  let iota := List.range learnSampleCount
  if shuffle then
    if permuteBlockSize = 1 then
      Shuffle iota rand
    else
      let blocksCount := (learnSampleCount + permuteBlockSize - 1) / permuteBlockSize
      let blockedPermute := Shuffle (List.range blocksCount) rand
      ((List.range blocksCount).foldl
        (blockStep learnSampleCount permuteBlockSize blockedPermute) (0, iota)).2
  else iota

/-- Rounding of a rational to the nearest integer, a tie to the even one: the rounding
of a mantissa in the default IEEE 754 mode. -/
def roundHalfEven (y : ℚ) : Int :=
  if y - ⌊y⌋ < 1 / 2 then ⌊y⌋
  else if 1 / 2 < y - ⌊y⌋ then ⌊y⌋ + 1
  else if ⌊y⌋ % 2 = 0 then ⌊y⌋ else ⌊y⌋ + 1

/-- Exponent of the last mantissa bit of the doubles in the binade of `x`:
`floor(log2 |x|) - 52`, and `-1074` in the subnormal range. -/
def ulpExponent (x : ℚ) : Int := max (Int.log 2 |x| - 52) (-1074)

/-- The double nearest to the rational `x`, ties to even: what a `double` operation
with the exact result `x` returns. -/
def roundToDouble (x : ℚ) : ℚ :=
  (roundHalfEven (x / 2 ^ ulpExponent x) : ℚ) * 2 ^ ulpExponent x

/-- The rational `x` is the value of a double: a mantissa of at most 53 bits at an
exponent of at least `-1074`.  The exponent is not bounded above, see the conventions. -/
def IsDouble (x : ℚ) : Prop := roundToDouble x = x

instance decidableIsDouble (x : ℚ) : Decidable (IsDouble x) :=
  inferInstanceAs (Decidable (roundToDouble x = x))

/-- The `double` product `leftPartLen * multiplier` of fold.h:196: the `int` is
converted exactly and the exact product is rounded to the nearest double.  The
argument of the code is a double; a rational that is the value of no double is not an
argument the code can receive, and its product is left unrounded. -/
def roundedProduct (leftPartLen : Int) (multiplier : ℚ) : ℚ :=
  if IsDouble multiplier then roundToDouble ((leftPartLen : ℚ) * multiplier)
  else (leftPartLen : ℚ) * multiplier

/-- One window of the learn fold (fold.h:194-202) for the current `leftPartLen`. -/
def makeMixTail (data : TTrainData) (learnPermutation : List Nat) (approxDimension : Nat)
    (multiplier : ℚ) (leftPartLen : Int) : TMixTail :=
  let tailFinish : Int :=
    min ⌈roundedProduct leftPartLen multiplier⌉ (learnPermutation.length : Int)
  let approx := zeroBuffer approxDimension tailFinish.toNat
  let approx :=
    if hasBaseline data then
      InitFromBaseline leftPartLen tailFinish data.Baseline learnPermutation approx
    else approx
  { MixCount := leftPartLen
    TailFinish := tailFinish
    Approx := approx
    Derivatives := zeroBuffer approxDimension tailFinish.toNat
    WeightedDer := zeroBuffer approxDimension tailFinish.toNat }

/-- The `while (leftPartLen < data.LearnSampleCount)` loop of `BuildLearnFold`
(fold.h:193-205): the windows appended from the state `leftPartLen`, `none` when the
fuel is used up before the loop condition fails. -/
def mixTailLoop (data : TTrainData) (learnPermutation : List Nat) (approxDimension : Nat)
    (multiplier : ℚ) : Nat → Int → Option (List TMixTail)
  | 0, leftPartLen =>
    if leftPartLen < (data.LearnSampleCount : Int) then none else some []
  | fuel + 1, leftPartLen =>
    if leftPartLen < (data.LearnSampleCount : Int) then
      let mt := makeMixTail data learnPermutation approxDimension multiplier leftPartLen
      (mixTailLoop data learnPermutation approxDimension multiplier fuel mt.TailFinish).map
        (fun rest => mt :: rest)
    else some []

/-- Function `BuildLearnFold` (fold.h:155-207); `fuel` bounds the iterations of its
`while` loop. -/
def BuildLearnFold (fuel : Nat) (data : TTrainData)
    (targetClassifiers : List TTargetClassifier) (shuffle : Bool) (permuteBlockSize : Nat)
    (approxDimension : Nat) (multiplier : ℚ) (rand : TRestorableFastRng64) : Option TFold :=
  let ff : TFold := {}
  let ff := { ff with
    LearnPermutation := learnPermutation data.LearnSampleCount shuffle permuteBlockSize rand }
  let ff := ff.AssignTarget data.Target targetClassifiers
  let ff := if !data.Weights.isEmpty then
      { ff with LearnWeights := ff.AssignPermuted data.Weights } else ff
  let ff := { ff with EffectiveDocCount := data.LearnSampleCount }
  let leftPartLen := SelectMinBatchSize data.LearnSampleCount
  (mixTailLoop data ff.LearnPermutation approxDimension multiplier fuel leftPartLen).map
    (fun windows => { ff with MixTailArr := ff.MixTailArr ++ windows })

/-- Function `BuildAveragingFold` (fold.h:209-238). -/
def BuildAveragingFold (data : TTrainData) (targetClassifiers : List TTargetClassifier)
    (shuffle : Bool) (approxDimension : Nat) (rand : TRestorableFastRng64) : TFold :=
  let ff : TFold := {}
  let iota := List.range data.LearnSampleCount
  let ff := { ff with LearnPermutation := if shuffle then Shuffle iota rand else iota }
  let ff := ff.AssignTarget data.Target targetClassifiers
  let ff := if !data.Weights.isEmpty then
      { ff with LearnWeights := ff.AssignPermuted data.Weights } else ff
  let ff := { ff with EffectiveDocCount := data.GetSampleCount }
  let approx := zeroBuffer approxDimension data.GetSampleCount
  let approx :=
    if hasBaseline data then
      InitFromBaseline 0 data.GetSampleCount data.Baseline ff.LearnPermutation approx
    else approx
  let mt : TMixTail :=
    { MixCount := data.LearnSampleCount
      TailFinish := data.LearnSampleCount
      Approx := approx
      WeightedDer := zeroBuffer approxDimension data.GetSampleCount }
  { ff with MixTailArr := ff.MixTailArr ++ [mt] }

/-- The element `approx[dim][pos]` of a buffer, `none` outside the buffer. -/
def approxAt (approx : List (List TDouble)) (dim pos : Nat) : Option TDouble :=
  approx[dim]?.bind (fun row => row[pos]?)

/-- Modelled from the spec: the checkpoint stream behind `TOutputStream` and
`TInputStream` (the stream classes and the `::Save`/`::Load` helpers of util/ysaveload.h
are not part of the sources). The persisted format is the "sequence of
`(windowCount: u64, [bufferLength: u64, bufferBytes]*)`": the stream is the sequence of
its 64-bit items, a count or the bit pattern of one `double`. -/
abbrev TStream := List Nat

/-- Modelled from the spec: `::Save(s, ui64)`, which appends the value to the stream. -/
def SaveUi64 (s : TStream) (x : Nat) : TStream := s ++ [x]

/-- Modelled from the spec: `::Save(s, yvector<double>)`, "a length-prefixed encoding":
the element count, then the elements. -/
def SaveVector (s : TStream) (v : List TDouble) : TStream := SaveUi64 s v.length ++ v

/-- Modelled from the spec: `::Save(s, yvector<yvector<double>>)`, the length-prefixed
encoding of one `Approx` buffer: the row count, then every row. -/
def SaveBuffer (s : TStream) (approx : List (List TDouble)) : TStream :=
  approx.foldl SaveVector (SaveUi64 s approx.length)

/-- Modelled from the spec: the ways a load can fail (the `CB_ENSURE` macro and `::Load`
are not part of the sources): `CB_ENSURE` throws on a window count that disagrees with
the fold, the `SchemaMismatch` of the spec, and `::Load` throws when the stream ends
early. -/
inductive TLoadError where
  | SchemaMismatch
  | EndOfStream
deriving DecidableEq

/-- Modelled from the spec: `::Load(s, ui64&)`, which takes the next item of the
stream. -/
def LoadUi64 : TStream → Except TLoadError (Nat × TStream)
  | [] => .error .EndOfStream
  | x :: s => .ok (x, s)

/-- Reads `count` items, the elements of one row. -/
def loadItems : Nat → TStream → Except TLoadError (List TDouble × TStream)
  | 0, s => .ok ([], s)
  | _ + 1, [] => .error .EndOfStream
  | count + 1, x :: s =>
    match loadItems count s with
    | .ok (v, rest) => .ok (x :: v, rest)
    | .error e => .error e

/-- Modelled from the spec: `::Load(s, yvector<double>&)`, the inverse of `SaveVector`:
the element count, then that many elements. -/
def LoadVector (s : TStream) : Except TLoadError (List TDouble × TStream) :=
  match LoadUi64 s with
  | .ok (count, rest) => loadItems count rest
  | .error e => .error e

/-- Reads `count` rows. -/
def loadRows : Nat → TStream → Except TLoadError (List (List TDouble) × TStream)
  | 0, s => .ok ([], s)
  | count + 1, s =>
    match LoadVector s with
    | .ok (v, rest) =>
      match loadRows count rest with
      | .ok (rows, rest) => .ok (v :: rows, rest)
      | .error e => .error e
    | .error e => .error e

/-- Modelled from the spec: `::Load(s, yvector<yvector<double>>&)`, the inverse of
`SaveBuffer`. -/
def LoadBuffer (s : TStream) : Except TLoadError (List (List TDouble) × TStream) :=
  match LoadUi64 s with
  | .ok (count, rest) => loadRows count rest
  | .error e => .error e

/-- Method `TFold::SaveApproxes` (fold.h:114-120): the stream `s` with the written items
appended. -/
def TFold.SaveApproxes (ff : TFold) (s : TStream) : TStream :=
  let mixTailCount := ff.MixTailArr.length
  let s := SaveUi64 s mixTailCount
  (List.range mixTailCount).foldl
    (fun s i => SaveBuffer s (ff.MixTailArr.getD i {}).Approx) s

/-- Outcome of `LoadApproxes`: the fold as the call leaves it, the unread part of the
stream, and the exception thrown, if any. -/
structure TLoadResult where
  Fold : TFold
  Rest : TStream
  Error : Option TLoadError
deriving DecidableEq

/-- The loop of `LoadApproxes` (fold.h:125-127) from index `i` on, `todo` iterations
left. A buffer whose load throws is left as it was. -/
def loadLoop : Nat → Nat → TFold → TStream → TLoadResult
  | 0, _, ff, s => { Fold := ff, Rest := s, Error := none }
  | todo + 1, i, ff, s =>
    match LoadBuffer s with
    | .ok (approx, rest) =>
      let mt := ff.MixTailArr.getD i {}
      loadLoop todo (i + 1)
        { ff with MixTailArr := ff.MixTailArr.set i { mt with Approx := approx } } rest
    | .error e => { Fold := ff, Rest := s, Error := some e }

/-- Method `TFold::LoadApproxes` (fold.h:121-128): the count is read and checked by
`CB_ENSURE` before any buffer is touched. -/
def TFold.LoadApproxes (ff : TFold) (s : TStream) : TLoadResult :=
  match LoadUi64 s with
  | .error e => { Fold := ff, Rest := s, Error := some e }
  | .ok (mixTailCount, rest) =>
    if mixTailCount = ff.MixTailArr.length then
      loadLoop mixTailCount 0 ff rest
    else { Fold := ff, Rest := rest, Error := some .SchemaMismatch }

/-- The windows appended by the loop of `BuildLearnFold` started at `leftPartLen`
form a schedule up to `sampleCount`: each window starts where the loop stands, ends
strictly later and not beyond `sampleCount`, and the loop stops at `sampleCount`. -/
def IsSchedule (sampleCount : Int) : Int → List TMixTail → Prop
  | leftPartLen, [] => sampleCount ≤ leftPartLen
  | leftPartLen, w :: ws =>
    leftPartLen < sampleCount ∧ w.MixCount = leftPartLen ∧ leftPartLen < w.TailFinish ∧
      w.TailFinish ≤ sampleCount ∧ IsSchedule sampleCount w.TailFinish ws

/-- The block `[b * B, min (b * B + B) N)` of sample indices, in ascending order. -/
def blockOf (learnSampleCount permuteBlockSize b : Nat) : List Nat :=
  List.range' (b * permuteBlockSize)
    (min (b * permuteBlockSize + permuteBlockSize) learnSampleCount - b * permuteBlockSize)

/-- A dataset of seven learn samples and two held-out ones, with a two-dimensional
baseline. -/
def sampleData : TTrainData :=
  { LearnSampleCount := 7
    SampleCount := 9
    Target := [1, 2, 3, 4, 5, 6, 7, 8, 9]
    Weights := []
    Baseline := [[10, 11], [20, 21], [30, 31], [40, 41], [50, 51], [60, 61], [70, 71],
      [80, 81], [90, 91]] }

/-- A dataset with a single learn sample and one held-out sample, without baseline. -/
def oneLearnSample : TTrainData :=
  { LearnSampleCount := 1
    SampleCount := 2
    Target := [3, 4]
    Weights := []
    Baseline := [[], []] }

/-- The windows that `BuildLearnFold` makes of `sampleData` with the permutation
`[6, 3, 4, 5, 0, 1, 2]`, dimension `2` and the multiplier `1.5`, written out. -/
def sampleWindows : List TMixTail :=
  [{ MixCount := 1, TailFinish := 2
     Approx := [[0, 40], [0, 41]]
     Derivatives := [[0, 0], [0, 0]]
     WeightedDer := [[0, 0], [0, 0]] },
   { MixCount := 2, TailFinish := 3
     Approx := [[0, 0, 50], [0, 0, 51]]
     Derivatives := [[0, 0, 0], [0, 0, 0]]
     WeightedDer := [[0, 0, 0], [0, 0, 0]] },
   { MixCount := 3, TailFinish := 5
     Approx := [[0, 0, 0, 60, 10], [0, 0, 0, 61, 11]]
     Derivatives := [[0, 0, 0, 0, 0], [0, 0, 0, 0, 0]]
     WeightedDer := [[0, 0, 0, 0, 0], [0, 0, 0, 0, 0]] },
   { MixCount := 5, TailFinish := 7
     Approx := [[0, 0, 0, 0, 0, 20, 30], [0, 0, 0, 0, 0, 21, 31]]
     Derivatives := [[0, 0, 0, 0, 0, 0, 0], [0, 0, 0, 0, 0, 0, 0]]
     WeightedDer := [[0, 0, 0, 0, 0, 0, 0], [0, 0, 0, 0, 0, 0, 0]] }]

/-- The value of the double written `1.1`: the mantissa `4953959590107546` at the
exponent `-52`, a little above eleven tenths. -/
def onePointOne : ℚ := 4953959590107546 / 4503599627370496

/-- A dataset of 520 learn samples without baseline; its first window starts at
`SelectMinBatchSize 520 = 10`. -/
def data520 : TTrainData :=
  { LearnSampleCount := 520
    SampleCount := 520
    Target := List.replicate 520 0
    Weights := []
    Baseline := [[]] }

/-- A fold with two windows whose `Approx` buffers hold values, the fold that is
saved. -/
def savedFold : TFold :=
  { LearnPermutation := [1, 0, 2]
    MixTailArr :=
      [{ Approx := [[0, 7], [0, 8]], Derivatives := [[0, 0], [0, 0]],
         WeightedDer := [[0, 0], [0, 0]], MixCount := 1, TailFinish := 2 },
       { Approx := [[0, 0, 9], [0, 0, 4]], Derivatives := [[0, 0, 0], [0, 0, 0]],
         WeightedDer := [[0, 0, 0], [0, 0, 0]], MixCount := 2, TailFinish := 3 }] }

/-- The same schedule with other `Approx` values, the fold that is loaded into. -/
def liveFold : TFold :=
  { LearnPermutation := [1, 0, 2]
    MixTailArr :=
      [{ Approx := [[5, 5], [5, 5]], Derivatives := [[1, 1], [1, 1]],
         WeightedDer := [[2, 2], [2, 2]], MixCount := 1, TailFinish := 2 },
       { Approx := [[6, 6, 6], [6, 6, 6]], Derivatives := [[1, 1, 1], [1, 1, 1]],
         WeightedDer := [[2, 2, 2], [2, 2, 2]], MixCount := 2, TailFinish := 3 }] }

/-- Function `TFold::HasSingleFeature` (fold.h:132-134). -/
def HasSingleFeature (proj : TProjection) : Bool :=
  proj.BinFeatures.length + proj.CatFeatures.length == 1

/-- Modelled from the spec: lookup in the hash map `TOnlineCTRHash` (the hash map class
of util is not part of the sources), "a mapping from Feature Combination to an opaque
per-combination statistic record": the record stored under the key, if any. -/
def hashFind (table : TOnlineCTRHash) (proj : TProjection) : Option TOnlineCTR :=
  (table.find? (fun e => e.1 == proj)).map (fun e => e.2)

/-- Modelled from the spec: `table[proj]` of the hash map, which "returns existing
record or inserts and returns a freshly default-constructed one": the record and the
table after the call. -/
def hashIndex (table : TOnlineCTRHash) (proj : TProjection) : TOnlineCTR × TOnlineCTRHash :=
  match hashFind table proj with
  | some rec => (rec, table)
  | none => ({}, table ++ [(proj, {})])

/-- Modelled from the spec: the way a lookup in the hash map can fail, the `NotFound`
that `at` throws on a key that is absent. -/
inductive TLookupError where
  | NotFound
deriving DecidableEq

/-- Modelled from the spec: `table.at(proj)` of the hash map, the "read-only lookup" that
"fails with `NotFound` if absent". -/
def hashAt (table : TOnlineCTRHash) (proj : TProjection) : Except TLookupError TOnlineCTR :=
  match hashFind table proj with
  | some rec => .ok rec
  | none => .error .NotFound

/-- Modelled from the spec: `table.erase(proj)` of the hash map, which removes the entry
stored under the key. -/
def hashErase (table : TOnlineCTRHash) (proj : TProjection) : TOnlineCTRHash :=
  table.filter (fun e => !(e.1 == proj))

/-- Modelled from the spec: a write through the reference `table[proj]` hands out, which
replaces the record stored under the key. -/
def hashAssign (table : TOnlineCTRHash) (proj : TProjection) (value : TOnlineCTR) :
    TOnlineCTRHash :=
  table.map (fun e => if e.1 == proj then (e.1, value) else e)

/-- Method `TFold::GetCtrs` (fold.h:45-51): the table a projection is kept in. -/
def TFold.GetCtrs (ff : TFold) (proj : TProjection) : TOnlineCTRHash :=
  if HasSingleFeature proj then ff.OnlineSingleCtrs else ff.OnlineCTR

/-- The fold after the table that `GetCtrs(proj)` refers to has been changed in place
(the non-const `GetCtrs` returns a reference to the member). -/
def TFold.setCtrs (ff : TFold) (proj : TProjection) (table : TOnlineCTRHash) : TFold :=
  if HasSingleFeature proj then { ff with OnlineSingleCtrs := table }
  else { ff with OnlineCTR := table }

/-- Method `TFold::GetCtrRef` (fold.h:53-55), `GetCtrs(proj)[proj]`: the record the
returned reference points at and the fold after the call. -/
def TFold.GetCtrRef (ff : TFold) (proj : TProjection) : TOnlineCTR × TFold :=
  let r := hashIndex (ff.GetCtrs proj) proj
  (r.1, ff.setCtrs proj r.2)

/-- The assignment `GetCtrRef(proj) = value` a caller makes through the returned
reference: the fold afterwards. -/
def TFold.AssignCtrRef (ff : TFold) (proj : TProjection) (value : TOnlineCTR) : TFold :=
  let ff := (ff.GetCtrRef proj).2
  ff.setCtrs proj (hashAssign (ff.GetCtrs proj) proj value)

/-- Method `TFold::GetCtr` (fold.h:57-59), `GetCtrs(proj).at(proj)`; the method is
`const`, so there is no fold after the call. -/
def TFold.GetCtr (ff : TFold) (proj : TProjection) : Except TLookupError TOnlineCTR :=
  hashAt (ff.GetCtrs proj) proj

/-- The projections `DropEmptyCTRs` collects (fold.h:62-72): the keys of the empty
records of the single-feature table, then those of the multi-feature table. -/
def TFold.emptyProjections (ff : TFold) : List TProjection :=
  (ff.OnlineSingleCtrs.filter (fun e => e.2.Feature.isEmpty)).map (fun e => e.1) ++
    (ff.OnlineCTR.filter (fun e => e.2.Feature.isEmpty)).map (fun e => e.1)

/-- One step of the last loop of `DropEmptyCTRs` (fold.h:73-75):
`GetCtrs(proj).erase(proj)`. -/
def TFold.eraseCtr (ff : TFold) (proj : TProjection) : TFold :=
  ff.setCtrs proj (hashErase (ff.GetCtrs proj) proj)

/-- Method `TFold::DropEmptyCTRs` (fold.h:61-76). -/
def TFold.DropEmptyCTRs (ff : TFold) : TFold :=
  ff.emptyProjections.foldl TFold.eraseCtr ff

/-- Method `TFold::TrimOnlineCTR` (fold.h:108-112). -/
def TFold.TrimOnlineCTR (ff : TFold) (maxOnlineCTRFeatures : Nat) : TFold :=
  if ff.OnlineCTR.length > maxOnlineCTRFeatures then { ff with OnlineCTR := [] } else ff

/-- The fold states reached from a fold with empty tables by calls of `GetCtrRef`, writes
through the reference it returns, `DropEmptyCTRs` and `TrimOnlineCTR` (`GetCtr` is
`const` and reaches no new state). -/
inductive TablesReachable : TFold → Prop where
  | fresh (ff : TFold) : ff.OnlineSingleCtrs = [] → ff.OnlineCTR = [] → TablesReachable ff
  | getCtrRef (ff : TFold) (proj : TProjection) :
      TablesReachable ff → TablesReachable (ff.GetCtrRef proj).2
  | assignCtrRef (ff : TFold) (proj : TProjection) (value : TOnlineCTR) :
      TablesReachable ff → TablesReachable (ff.AssignCtrRef proj value)
  | dropEmptyCTRs (ff : TFold) : TablesReachable ff → TablesReachable ff.DropEmptyCTRs
  | trimOnlineCTR (ff : TFold) (maxOnlineCTRFeatures : Nat) :
      TablesReachable ff → TablesReachable (ff.TrimOnlineCTR maxOnlineCTRFeatures)

/-- The tables of a fold are well formed: every key of the single-feature table has one
feature, no key of the multi-feature table has, and no table holds a key twice. -/
def TablesOk (ff : TFold) : Prop :=
  (∀ e ∈ ff.OnlineSingleCtrs, HasSingleFeature e.1 = true) ∧
    (∀ e ∈ ff.OnlineCTR, HasSingleFeature e.1 = false) ∧
    (ff.OnlineSingleCtrs.map (fun e => e.1)).Nodup ∧
    (ff.OnlineCTR.map (fun e => e.1)).Nodup

/-- A projection of one categorical feature. -/
def singleProj : TProjection := { BinFeatures := [], CatFeatures := [3] }

/-- A projection of two categorical features. -/
def pairProj : TProjection := { BinFeatures := [], CatFeatures := [3, 5] }

/-- A projection of one binarized and one categorical feature. -/
def mixedProj : TProjection := { BinFeatures := [(2, 1)], CatFeatures := [4] }

/-- A record that holds statistics. -/
def filledCtr : TOnlineCTR := { Feature := [[1, 2]] }

/-- A fold whose tables hold one filled single-feature record, one empty and one filled
multi-feature record. -/
def tablesFold : TFold :=
  ((({} : TFold).AssignCtrRef singleProj filledCtr).GetCtrRef pairProj).2.AssignCtrRef
    mixedProj filledCtr

/-- A dataset without samples. -/
def emptyData : TTrainData :=
  { LearnSampleCount := 0
    SampleCount := 0
    Target := []
    Weights := []
    Baseline := [] }

/-- A classifier with one border at `4`: two classes. -/
def borderClassifier : TTargetClassifier :=
  { GetTargetClass := fun t => if t > 4 then 1 else 0
    GetClassesCount := 2 }

/-- A buffer consists of `approxDimension` arrays, each of length `n`. -/
def HasShape (buffer : List (List TDouble)) (approxDimension n : Nat) : Prop :=
  buffer.length = approxDimension ∧ ∀ row ∈ buffer, row.length = n

/-- Every element of a buffer has the default value `0`. -/
def AllZero (buffer : List (List TDouble)) : Prop :=
  ∀ row ∈ buffer, ∀ x ∈ row, x = 0

/-! ## `SelectMinBatchSize` -/

theorem SelectMinBatchSize_eq (N : Int) :
    SelectMinBatchSize N = if N ≤ 500 then 1 else min 100 (N / 50) := by
  unfold SelectMinBatchSize
  by_cases h : N > 500
  · have h0 : (0 : Int) ≤ N := by omega
    rw [if_pos h, if_neg (by omega), Int.tdiv_eq_ediv h0 (by decide)]
  · rw [if_neg h, if_pos (by omega)]

theorem SelectMinBatchSize_bounds (N : Int) (hN : 1 ≤ N) :
    1 ≤ SelectMinBatchSize N ∧ SelectMinBatchSize N ≤ N := by
  rw [SelectMinBatchSize_eq]
  by_cases h : N ≤ 500
  · rw [if_pos h]; omega
  · rw [if_neg h]
    have : 10 ≤ N / 50 := by omega
    have h2 : N / 50 ≤ N := by omega
    constructor
    · exact le_min (by omega) (by omega)
    · exact le_trans (min_le_right _ _) h2

theorem SelectMinBatchSize_pos (N : Int) : 1 ≤ SelectMinBatchSize N := by
  rw [SelectMinBatchSize_eq]
  by_cases h : N ≤ 500
  · rw [if_pos h]
  · rw [if_neg h]
    exact le_min (by omega) (by omega)

theorem SelectMinBatchSize_lt (N : Int) (hN : 2 ≤ N) : SelectMinBatchSize N < N := by
  rw [SelectMinBatchSize_eq]
  by_cases h : N ≤ 500
  · rw [if_pos h]; omega
  · rw [if_neg h]
    exact lt_of_le_of_lt (min_le_left _ _) (by omega)

/-! ## The permutation stage -/

/-- The inner loop of the block shuffle writes one ascending run into the permutation. -/
theorem writeBlock_eq (c s : Nat) : ∀ (len : Nat) (p : List Nat), c + len ≤ p.length →
    (List.range' s len).foldl (fun q j => q.set (c + j - s) j) p =
      p.take c ++ List.range' s len ++ p.drop (c + len) := by
  intro len
  induction len with
  | zero => intro p _; simp
  | succ len ih =>
    intro p hp
    rw [List.range'_1_concat, List.foldl_append, ih p (by omega)]
    simp only [List.foldl_cons, List.foldl_nil]
    have hlen : (p.take c ++ List.range' s len).length = c + len := by
      simp only [List.length_append, List.length_take, List.length_range']
      omega
    rw [List.set_append_right _ _ (by rw [hlen]; omega), hlen,
      List.drop_eq_getElem_cons (by omega : c + len < p.length)]
    have h0 : c + (s + len) - s - (c + len) = 0 := by omega
    rw [h0, List.set_cons_zero]
    simp [List.append_assoc, Nat.add_assoc]

theorem length_blockOf (N B b : Nat) :
    (blockOf N B b).length = min (b * B + B) N - b * B := by
  simp [blockOf]

theorem blockStep_eq (N B : Nat) (bp : List Nat) (c : Nat) (p : List Nat) (i : Nat)
    (h : c + (blockOf N B (bp.getD i 0)).length ≤ p.length) :
    blockStep N B bp (c, p) i =
      (c + (blockOf N B (bp.getD i 0)).length,
        p.take c ++ blockOf N B (bp.getD i 0) ++ p.drop (c + (blockOf N B (bp.getD i 0)).length)) := by
  rw [length_blockOf] at h ⊢
  simp only [blockStep, blockOf]
  rw [writeBlock_eq c _ _ p h]

/-- The block loop over a list of indices `is` copies the blocks named by
`blockedPermute` at these indices, one after the other, from position `c` on. -/
theorem blockLoop_eq (N B : Nat) (bp : List Nat) : ∀ (is : List Nat) (c : Nat) (p : List Nat),
    c + ((is.map (fun i => bp.getD i 0)).flatMap (blockOf N B)).length ≤ p.length →
    is.foldl (blockStep N B bp) (c, p) =
      (c + ((is.map (fun i => bp.getD i 0)).flatMap (blockOf N B)).length,
        p.take c ++ (is.map (fun i => bp.getD i 0)).flatMap (blockOf N B) ++
          p.drop (c + ((is.map (fun i => bp.getD i 0)).flatMap (blockOf N B)).length)) := by
  intro is
  induction is with
  | nil => intro c p _; simp
  | cons i is ih =>
    intro c p h
    simp only [List.map_cons, List.flatMap_cons, List.length_append] at h ⊢
    rw [List.foldl_cons, blockStep_eq N B bp c p i (by omega)]
    have hlen : (p.take c ++ blockOf N B (bp.getD i 0)).length =
        c + (blockOf N B (bp.getD i 0)).length := by
      simp only [List.length_append, List.length_take]
      omega
    have htake := @List.take_left' _ (p.take c ++ blockOf N B (bp.getD i 0))
      (p.drop (c + (blockOf N B (bp.getD i 0)).length)) _ hlen
    have hdrop := @List.drop_append _ (p.take c ++ blockOf N B (bp.getD i 0))
      (p.drop (c + (blockOf N B (bp.getD i 0)).length))
      (((is.map (fun i => bp.getD i 0)).flatMap (blockOf N B)).length)
    rw [hlen, List.drop_drop] at hdrop
    rw [ih _ _ (by
      simp only [List.length_append, List.length_take, List.length_drop]
      omega), htake, hdrop]
    simp only [List.append_assoc, Nat.add_assoc, Nat.add_comm]

theorem map_getD_range {α : Type} (bp : List α) (d : α) :
    (List.range bp.length).map (fun i => bp.getD i d) = bp := by
  apply List.ext_getElem?
  intro n
  by_cases h : n < bp.length
  · simp [List.getElem?_range h, List.getD_eq_getElem?_getD, List.getElem?_eq_getElem h]
  · have h1 : bp.length ≤ n := by omega
    simp [List.getElem?_eq_none h1, h1]

/-- The first `k` blocks in their natural order make up the indices below
`min (k * B) N`. -/
theorem flatMap_blockOf_range (N B : Nat) : ∀ k : Nat,
    (List.range k).flatMap (blockOf N B) = List.range (min (k * B) N) := by
  intro k
  induction k with
  | zero => simp
  | succ k ih =>
    rw [List.range_succ, List.flatMap_append, ih, List.flatMap_singleton, blockOf,
      List.range_eq_range', List.range_eq_range']
    by_cases h : k * B ≤ N
    · rw [min_eq_left h]
      have := List.range'_append_1 0 (k * B) (min (k * B + B) N - k * B)
      rw [Nat.zero_add] at this
      rw [this, Nat.succ_mul]
      congr 1
      omega
    · have h1 : min (k * B + B) N - k * B = 0 := by omega
      rw [h1, Nat.succ_mul]
      simp only [List.range'_zero, List.append_nil]
      congr 1
      omega

theorem le_blocksCount_mul (N B : Nat) (hB : 1 ≤ B) : N ≤ (N + B - 1) / B * B := by
  have h1 := Nat.div_add_mod (N + B - 1) B
  have h2 := Nat.mod_lt (N + B - 1) (by omega : B > 0)
  rw [Nat.mul_comm] at h1
  omega

theorem flatMap_blockOf_all (N B : Nat) (hB : 1 ≤ B) :
    (List.range ((N + B - 1) / B)).flatMap (blockOf N B) = List.range N := by
  rw [flatMap_blockOf_range, min_eq_right (le_blocksCount_mul N B hB)]

/-- With a block size above one the shuffled permutation is the concatenation of the
blocks in the order returned by `Shuffle`. -/
theorem learnPermutation_blocked (N B : Nat) (rand : TRestorableFastRng64) (hB : 1 < B)
    (hrand : ShufflePermutes rand) :
    learnPermutation N true B rand =
      (Shuffle (List.range ((N + B - 1) / B)) rand).flatMap (blockOf N B) := by
  have hperm : (Shuffle (List.range ((N + B - 1) / B)) rand).Perm
      (List.range ((N + B - 1) / B)) := hrand _
  have hlen : (Shuffle (List.range ((N + B - 1) / B)) rand).length = (N + B - 1) / B := by
    rw [hperm.length_eq, List.length_range]
  have htotal : ((Shuffle (List.range ((N + B - 1) / B)) rand).flatMap (blockOf N B)).length
      = N := by
    rw [(hperm.flatMap_right (blockOf N B)).length_eq, flatMap_blockOf_all N B (by omega),
      List.length_range]
  have hmap := map_getD_range (Shuffle (List.range ((N + B - 1) / B)) rand) 0
  rw [hlen] at hmap
  simp only [learnPermutation, if_true, if_neg (by omega : ¬ B = 1)]
  rw [blockLoop_eq N B _ _ 0 (List.range N) (by rw [hmap, htotal]; simp), hmap, htotal]
  simp

/-- The permutation stage returns a rearrangement of `[0, N)`. -/
theorem learnPermutation_perm (N B : Nat) (shuffle : Bool) (rand : TRestorableFastRng64)
    (hB : 1 ≤ B) (hrand : ShufflePermutes rand) :
    (learnPermutation N shuffle B rand).Perm (List.range N) := by
  cases shuffle with
  | false => simp [learnPermutation]
  | true =>
    by_cases h1 : B = 1
    · simp only [learnPermutation, if_true, if_pos h1]
      exact hrand _
    · rw [learnPermutation_blocked N B rand (by omega) hrand, ← flatMap_blockOf_all N B hB]
      exact (hrand _).flatMap_right _

theorem learnPermutation_length (N B : Nat) (shuffle : Bool) (rand : TRestorableFastRng64)
    (hrand : ShufflePermutes rand) : (learnPermutation N shuffle B rand).length = N := by
  cases shuffle with
  | false => simp [learnPermutation]
  | true =>
    by_cases h1 : B = 1
    · simp only [learnPermutation, if_true, if_pos h1]
      exact (hrand _).length_eq.trans (List.length_range _)
    · by_cases h0 : B = 0
      · subst h0
        simp [learnPermutation]
      · have hp : (Shuffle (List.range ((N + B - 1) / B)) rand).Perm
            (List.range ((N + B - 1) / B)) := hrand _
        rw [learnPermutation_blocked N B rand (by omega) hrand,
          (hp.flatMap_right _).length_eq, flatMap_blockOf_all N B (by omega),
          List.length_range]

/-- A rearrangement of `[0, N)` has length `N` and holds every index below `N` once. -/
theorem perm_range_bijection (perm : List Nat) (N : Nat) (h : perm.Perm (List.range N)) :
    perm.length = N ∧ ∀ i, i < N → perm.count i = 1 := by
  refine ⟨by rw [h.length_eq, List.length_range], ?_⟩
  intro i hi
  rw [h.count_eq]
  exact List.count_eq_one_of_mem (List.nodup_range N) (List.mem_range.mpr hi)

/-- Two indices of one block sit in the concatenation of the blocks at the distance
they have in the block. -/
theorem blocks_keep_order (N B : Nat) (sigma : List Nat) (hB : 1 ≤ B)
    (hsigma : sigma.Perm (List.range ((N + B - 1) / B))) (x y : Nat) (hxy : x < y)
    (hy : y < N) (hblock : x / B = y / B) :
    ∃ p, (sigma.flatMap (blockOf N B))[p]? = some x ∧
      (sigma.flatMap (blockOf N B))[p + (y - x)]? = some y := by
  have hx1 := Nat.div_add_mod x B
  have hx2 := Nat.mod_lt x (by omega : B > 0)
  have hy1 := Nat.div_add_mod y B
  have hy2 := Nat.mod_lt y (by omega : B > 0)
  rw [Nat.mul_comm] at hx1 hy1
  rw [← hblock] at hy1
  have hcount := le_blocksCount_mul N B hB
  have hb : x / B < (N + B - 1) / B := by
    apply Nat.lt_of_mul_lt_mul_right (a := B)
    omega
  have hmem : x / B ∈ sigma := (hsigma.mem_iff).mpr (List.mem_range.mpr hb)
  obtain ⟨s, t, hst⟩ := List.append_of_mem hmem
  have hlen := length_blockOf N B (x / B)
  refine ⟨(s.flatMap (blockOf N B)).length + (x - x / B * B), ?_, ?_⟩
  · rw [hst, List.flatMap_append, List.flatMap_cons,
      List.getElem?_append_right (by omega), List.getElem?_append_left (by omega)]
    simp only [Nat.add_sub_cancel_left, blockOf]
    rw [List.getElem?_range' _ _ (by omega)]
    congr 1
    omega
  · rw [hst, List.flatMap_append, List.flatMap_cons,
      List.getElem?_append_right (by omega), List.getElem?_append_left (by omega)]
    simp only [blockOf]
    rw [List.getElem?_range' _ _ (by omega)]
    congr 1
    omega

/-! ## Rounding to the nearest double -/

theorem floor_le_roundHalfEven (y : ℚ) : ⌊y⌋ ≤ roundHalfEven y := by
  unfold roundHalfEven
  split
  · exact le_refl _
  · split
    · omega
    · split <;> omega

theorem roundHalfEven_le_ceil (y : ℚ) : roundHalfEven y ≤ ⌈y⌉ := by
  have h1 := Int.floor_le_ceil y
  unfold roundHalfEven
  split
  · exact h1
  · rename_i h
    have hpos : (⌊y⌋ : ℚ) < y := by linarith
    have hc : ⌊y⌋ < ⌈y⌉ := by
      rw [Int.lt_ceil]
      exact hpos
    split
    · omega
    · split <;> omega

theorem roundHalfEven_intCast (k : Int) : roundHalfEven (k : ℚ) = k := by
  simp [roundHalfEven]

theorem two_zpow_pos (s : Int) : (0 : ℚ) < 2 ^ s := zpow_pos (by norm_num) s

theorem zpow_log_le (x : ℚ) (hx : 0 < x) : (2 : ℚ) ^ Int.log 2 x ≤ x := by
  have := Int.zpow_log_le_self (b := 2) (by norm_num) hx
  simpa using this

theorem lt_zpow_log_succ (x : ℚ) : x < (2 : ℚ) ^ (Int.log 2 x + 1) := by
  have := Int.lt_zpow_succ_log_self (b := 2) (by norm_num) x
  simpa using this

theorem le_log_of_zpow_le (x : ℚ) (hx : 0 < x) (z : Int) (h : (2 : ℚ) ^ z ≤ x) :
    z ≤ Int.log 2 x := by
  have := (Int.zpow_le_iff_le_log (b := 2) (by norm_num) (x := z) hx).mp (by simpa using h)
  exact this

theorem log_lt_of_lt_zpow (x : ℚ) (hx : 0 < x) (z : Int) (h : x < (2 : ℚ) ^ z) :
    Int.log 2 x < z := by
  have := (Int.lt_zpow_iff_log_lt (b := 2) (by norm_num) (x := z) hx).mp (by simpa using h)
  exact this

/-- The rounded product with a factor of at least `1 + 2 ^ (-52)` is above the
integer: either it reaches the next power of two or it is at least one mantissa step
above. -/
theorem lt_roundToDouble_mul (m : ℚ) (hm : 1 + (2 : ℚ) ^ (-52 : Int) ≤ m) (l : Int)
    (hl : 1 ≤ l) : (l : ℚ) < roundToDouble ((l : ℚ) * m) := by
  have hl1 : (1 : ℚ) ≤ (l : ℚ) := by exact_mod_cast hl
  have h52 : (0 : ℚ) < 2 ^ (-52 : Int) := two_zpow_pos _
  have hxl : (l : ℚ) + l * 2 ^ (-52 : Int) ≤ l * m := by nlinarith
  have hx1 : (1 : ℚ) ≤ l * m := by nlinarith
  have hx : (0 : ℚ) < l * m := by linarith
  have he0 : 0 ≤ Int.log 2 ((l : ℚ) * m) :=
    le_log_of_zpow_le _ hx 0 (by simpa using hx1)
  have hs : ulpExponent ((l : ℚ) * m) = Int.log 2 ((l : ℚ) * m) - 52 := by
    unfold ulpExponent
    rw [abs_of_pos hx]
    exact max_eq_left (by omega)
  unfold roundToDouble
  rw [hs]
  generalize hx0 : (l : ℚ) * m = x at *
  generalize he : Int.log 2 x = e at *
  have hlow : (2 : ℚ) ^ e ≤ x := by rw [← he]; exact zpow_log_le x hx
  have hsp : (0 : ℚ) < 2 ^ (e - 52) := two_zpow_pos _
  have hsplit : (2 : ℚ) ^ e = 4503599627370496 * 2 ^ (e - 52) := by
    have : (2 : ℚ) ^ e = 2 ^ (52 : Int) * 2 ^ (e - 52) := by
      rw [← zpow_add₀ (by norm_num : (2 : ℚ) ≠ 0)]
      congr 1
      omega
    rw [this]
    norm_num
  have hsplit2 : (2 : ℚ) ^ (e - 52) = 2 ^ e * 2 ^ (-52 : Int) := by
    rw [← zpow_add₀ (by norm_num : (2 : ℚ) ≠ 0)]
    congr 1
  have hk := floor_le_roundHalfEven (x / 2 ^ (e - 52))
  have hkq : ((⌊x / 2 ^ (e - 52)⌋ : Int) : ℚ) ≤ (roundHalfEven (x / 2 ^ (e - 52)) : ℚ) := by
    exact_mod_cast hk
  by_cases hcase : (l : ℚ) < 2 ^ e
  · have hfl : ((4503599627370496 : Int) : ℚ) ≤ x / 2 ^ (e - 52) := by
      rw [le_div_iff₀ hsp]
      push_cast
      rw [← hsplit]
      exact hlow
    have hfl2 := Int.le_floor.mpr hfl
    have hfl3 : ((4503599627370496 : Int) : ℚ) ≤ (⌊x / 2 ^ (e - 52)⌋ : ℚ) := by
      exact_mod_cast hfl2
    have : (2 : ℚ) ^ e ≤ (roundHalfEven (x / 2 ^ (e - 52)) : ℚ) * 2 ^ (e - 52) := by
      rw [hsplit]
      apply mul_le_mul_of_nonneg_right _ hsp.le
      push_cast at hfl3
      linarith
    linarith
  · have hge : (2 : ℚ) ^ e ≤ l := not_lt.mp hcase
    have hstep : (l : ℚ) + 2 ^ (e - 52) ≤ x := by
      rw [hsplit2]
      nlinarith
    have hdiv : (l : ℚ) / 2 ^ (e - 52) + 1 ≤ x / 2 ^ (e - 52) := by
      rw [div_add_one hsp.ne', div_le_div_iff_of_pos_right hsp]
      exact hstep
    have hlt := Int.lt_floor_add_one (x / 2 ^ (e - 52))
    have hkl : (l : ℚ) / 2 ^ (e - 52) < (roundHalfEven (x / 2 ^ (e - 52)) : ℚ) := by linarith
    rw [div_lt_iff₀ hsp] at hkl
    exact hkl

theorem roundToDouble_zero : roundToDouble 0 = 0 := by
  simp [roundToDouble, roundHalfEven]

/-- A double above one is at least the next double after one. -/
theorem next_after_one_le (m : ℚ) (hd : IsDouble m) (hm : 1 < m) :
    1 + (2 : ℚ) ^ (-52 : Int) ≤ m := by
  by_cases h2 : (2 : ℚ) ≤ m
  · have : (2 : ℚ) ^ (-52 : Int) ≤ 1 := by norm_num
    linarith
  · have hpos : (0 : ℚ) < m := by linarith
    have he : Int.log 2 m = 0 := by
      apply le_antisymm
      · have := log_lt_of_lt_zpow m hpos 1 (by simpa using not_le.mp h2)
        omega
      · exact le_log_of_zpow_le m hpos 0 (by simpa using hm.le)
    have hs : ulpExponent m = -52 := by
      unfold ulpExponent
      rw [abs_of_pos hpos, he]
      rfl
    unfold IsDouble roundToDouble at hd
    rw [hs] at hd
    have hp : (0 : ℚ) < 2 ^ (-52 : Int) := two_zpow_pos _
    have hk : (4503599627370496 : ℚ) < (roundHalfEven (m / 2 ^ (-52 : Int)) : ℚ) := by
      by_contra hcon
      have hle := not_lt.mp hcon
      have : (roundHalfEven (m / 2 ^ (-52 : Int)) : ℚ) * 2 ^ (-52 : Int) ≤
          4503599627370496 * 2 ^ (-52 : Int) := mul_le_mul_of_nonneg_right hle hp.le
      rw [hd] at this
      have h1 : (4503599627370496 : ℚ) * 2 ^ (-52 : Int) = 1 := by norm_num
      linarith
    have hk2 : (4503599627370496 : Int) < roundHalfEven (m / 2 ^ (-52 : Int)) := by
      exact_mod_cast hk
    have hk3 : (4503599627370497 : Int) ≤ roundHalfEven (m / 2 ^ (-52 : Int)) := by omega
    have hk4 : (4503599627370497 : ℚ) ≤ (roundHalfEven (m / 2 ^ (-52 : Int)) : ℚ) := by
      exact_mod_cast hk3
    have : (4503599627370497 : ℚ) * 2 ^ (-52 : Int) ≤
        (roundHalfEven (m / 2 ^ (-52 : Int)) : ℚ) * 2 ^ (-52 : Int) :=
      mul_le_mul_of_nonneg_right hk4 hp.le
    rw [hd] at this
    have h1 : (4503599627370497 : ℚ) * 2 ^ (-52 : Int) = 1 + 2 ^ (-52 : Int) := by norm_num
    linarith

/-- With a factor between zero and one the rounded product of an integer below `2 ^ 53`
stays between zero and that integer. -/
theorem roundToDouble_mul_le (m : ℚ) (hm0 : 0 ≤ m) (hm1 : m ≤ 1) (l : Int) (hl0 : 0 ≤ l)
    (hl : l < 2 ^ 53) :
    0 ≤ roundToDouble ((l : ℚ) * m) ∧ roundToDouble ((l : ℚ) * m) ≤ l := by
  have hlq : (0 : ℚ) ≤ (l : ℚ) := by exact_mod_cast hl0
  have hx0 : (0 : ℚ) ≤ l * m := mul_nonneg hlq hm0
  have hxl : (l : ℚ) * m ≤ l := by nlinarith
  rcases eq_or_lt_of_le hx0 with hz | hx
  · rw [← hz, roundToDouble_zero]
    exact ⟨le_refl _, hlq⟩
  · generalize (l : ℚ) * m = x at *
    have hsp : (0 : ℚ) < 2 ^ ulpExponent x := two_zpow_pos _
    have hl53 : (l : ℚ) < 2 ^ (53 : Int) := by
      have : ((l : Int) : ℚ) < ((2 ^ 53 : Int) : ℚ) := by exact_mod_cast hl
      norm_num at this ⊢
      exact this
    have he : Int.log 2 x < 53 := log_lt_of_lt_zpow x hx 53 (by linarith)
    have hs : ulpExponent x ≤ 0 := by
      unfold ulpExponent
      rw [abs_of_pos hx]
      exact max_le (by omega) (by omega)
    unfold roundToDouble
    constructor
    · apply mul_nonneg _ hsp.le
      have h1 : (0 : Int) ≤ ⌊x / 2 ^ ulpExponent x⌋ :=
        Int.le_floor.mpr (by simpa using (div_pos hx hsp).le)
      have h2 := floor_le_roundHalfEven (x / 2 ^ ulpExponent x)
      exact_mod_cast le_trans h1 h2
    · have hj : ((l * 2 ^ (-ulpExponent x).toNat : Int) : ℚ) = (l : ℚ) / 2 ^ ulpExponent x := by
        push_cast
        rw [← zpow_natCast, Int.toNat_of_nonneg (by omega), zpow_neg, div_eq_mul_inv]
      have hc : ⌈x / 2 ^ ulpExponent x⌉ ≤ l * 2 ^ (-ulpExponent x).toNat := by
        rw [Int.ceil_le, hj, div_le_div_iff_of_pos_right hsp]
        exact hxl
      have hk := le_trans (roundHalfEven_le_ceil (x / 2 ^ ulpExponent x)) hc
      have hkq : (roundHalfEven (x / 2 ^ ulpExponent x) : ℚ) ≤ (l : ℚ) / 2 ^ ulpExponent x := by
        rw [← hj]
        exact_mod_cast hk
      calc (roundHalfEven (x / 2 ^ ulpExponent x) : ℚ) * 2 ^ ulpExponent x
          ≤ (l : ℚ) / 2 ^ ulpExponent x * 2 ^ ulpExponent x :=
            mul_le_mul_of_nonneg_right hkq hsp.le
        _ = l := div_mul_cancel₀ _ hsp.ne'

/-- A value `k * 2 ^ t` with `|k| < 2 ^ 53` and `t ≥ -1074` is a double: rounding returns
it. -/
theorem roundToDouble_of_mantissa (x : ℚ) (k t : Int) (hx : x = (k : ℚ) * 2 ^ t)
    (hk : |k| < 2 ^ 53) (ht : -1074 ≤ t) : roundToDouble x = x := by
  by_cases hk0 : k = 0
  · rw [hx, hk0]
    simp [roundToDouble_zero]
  · have hkpos : (0 : ℚ) < |(k : ℚ)| := abs_pos.mpr (by exact_mod_cast hk0)
    have htp : (0 : ℚ) < 2 ^ t := two_zpow_pos _
    have habs : |x| = |(k : ℚ)| * 2 ^ t := by
      rw [hx, abs_mul, abs_of_pos htp]
    have hxpos : (0 : ℚ) < |x| := by rw [habs]; exact mul_pos hkpos htp
    have hk53 : |(k : ℚ)| < 2 ^ (53 : Int) := by
      have : ((|k| : Int) : ℚ) < ((2 ^ 53 : Int) : ℚ) := by exact_mod_cast hk
      norm_num at this ⊢
      exact this
    have hlt : |x| < 2 ^ (53 + t) := by
      rw [habs, zpow_add₀ (by norm_num : (2 : ℚ) ≠ 0)]
      exact mul_lt_mul_of_pos_right hk53 htp
    have he := log_lt_of_lt_zpow |x| hxpos (53 + t) hlt
    have hs : ulpExponent x ≤ t := by
      unfold ulpExponent
      exact max_le (by omega) ht
    have hint : x / 2 ^ ulpExponent x = ((k * 2 ^ (t - ulpExponent x).toNat : Int) : ℚ) := by
      push_cast
      rw [← zpow_natCast, Int.toNat_of_nonneg (by omega), hx,
        zpow_sub₀ (by norm_num : (2 : ℚ) ≠ 0), mul_div_assoc]
    unfold roundToDouble
    rw [hint, roundHalfEven_intCast, ← hint]
    exact div_mul_cancel₀ _ (two_zpow_pos _).ne'

/-- How a product is rounded when its binade and its rounded mantissa are known. -/
theorem roundToDouble_eq (x : ℚ) (e k : Int) (hx : 0 < x) (h1 : (2 : ℚ) ^ e ≤ x)
    (h2 : x < (2 : ℚ) ^ (e + 1)) (he : -1074 ≤ e - 52)
    (hk : roundHalfEven (x / 2 ^ (e - 52)) = k) :
    roundToDouble x = (k : ℚ) * 2 ^ (e - 52) := by
  have hlog : Int.log 2 x = e := by
    apply le_antisymm
    · have := log_lt_of_lt_zpow x hx (e + 1) h2
      omega
    · exact le_log_of_zpow_le x hx e h1
  have hs : ulpExponent x = e - 52 := by
    unfold ulpExponent
    rw [abs_of_pos hx, hlog]
    exact max_eq_left he
  unfold roundToDouble
  rw [hs, hk]

/-- A tie is rounded to the even neighbour below it. -/
theorem roundHalfEven_tie_even (y : ℚ) (k : Int) (hy : y = (k : ℚ) + 1 / 2)
    (hk : k % 2 = 0) : roundHalfEven y = k := by
  have hf : ⌊y⌋ = k := by
    rw [Int.floor_eq_iff, hy]
    constructor <;> linarith
  unfold roundHalfEven
  rw [hf, hy]
  norm_num [hk]

/-- The rounded product with a multiplier above one is above `leftPartLen`. -/
theorem lt_roundedProduct (m : ℚ) (hm : 1 < m) (l : Int) (hl : 1 ≤ l) :
    (l : ℚ) < roundedProduct l m := by
  unfold roundedProduct
  split
  · rename_i hd
    exact lt_roundToDouble_mul m (next_after_one_le m hd hm) l hl
  · have hpos : (0 : ℚ) < (l : ℚ) := by exact_mod_cast (by omega : (0 : Int) < l)
    nlinarith

/-- With a multiplier between zero and one the rounded product of a `leftPartLen`
below `2 ^ 53` is at most `leftPartLen`. -/
theorem roundedProduct_le (m : ℚ) (hm0 : 0 ≤ m) (hm1 : m ≤ 1) (l : Int) (hl0 : 0 ≤ l)
    (hl : l < 2 ^ 53) : roundedProduct l m ≤ l := by
  unfold roundedProduct
  split
  · exact (roundToDouble_mul_le m hm0 hm1 l hl0 hl).2
  · have hlq : (0 : ℚ) ≤ (l : ℚ) := by exact_mod_cast hl0
    nlinarith

/-- A product that is itself a double is not changed by the rounding. -/
theorem roundedProduct_exact (l : Int) (m : ℚ) (k t : Int)
    (hx : (l : ℚ) * m = (k : ℚ) * 2 ^ t) (hk : |k| < 2 ^ 53) (ht : -1074 ≤ t) :
    roundedProduct l m = (l : ℚ) * m := by
  unfold roundedProduct
  split
  · exact roundToDouble_of_mantissa _ k t hx hk ht
  · rfl

/-! ## The window schedule of the learn fold -/

theorem lt_ceil_roundedProduct (multiplier : ℚ) (hm : 1 < multiplier) (l : Int) (hl : 1 ≤ l) :
    l < ⌈roundedProduct l multiplier⌉ := by
  rw [Int.lt_ceil]
  exact lt_roundedProduct multiplier hm l hl

theorem makeMixTail_MixCount (data : TTrainData) (perm : List Nat) (D : Nat) (m : ℚ)
    (l : Int) : (makeMixTail data perm D m l).MixCount = l := rfl

theorem makeMixTail_TailFinish (data : TTrainData) (perm : List Nat) (D : Nat) (m : ℚ)
    (l : Int) :
    (makeMixTail data perm D m l).TailFinish =
      min ⌈roundedProduct l m⌉ (perm.length : Int) := rfl

theorem mixTailLoop_succ (data : TTrainData) (perm : List Nat) (D : Nat) (m : ℚ)
    (fuel : Nat) (l : Int) (hl : l < (data.LearnSampleCount : Int)) :
    mixTailLoop data perm D m (fuel + 1) l =
      (mixTailLoop data perm D m fuel (makeMixTail data perm D m l).TailFinish).map
        (fun rest => makeMixTail data perm D m l :: rest) := by
  simp [mixTailLoop, hl]

theorem mixTailLoop_done (data : TTrainData) (perm : List Nat) (D : Nat) (m : ℚ)
    (fuel : Nat) (l : Int) (hl : (data.LearnSampleCount : Int) ≤ l) :
    mixTailLoop data perm D m fuel l = some [] := by
  cases fuel <;> simp [mixTailLoop, not_lt.mpr hl]

/-- With a multiplier above one and enough fuel the loop stops, and its windows form a
schedule whose members are all made by `makeMixTail`. -/
theorem mixTailLoop_schedule (data : TTrainData) (perm : List Nat) (D : Nat) (m : ℚ)
    (hm : 1 < m) (hlen : perm.length = data.LearnSampleCount) :
    ∀ (fuel : Nat) (l : Int), 1 ≤ l → (data.LearnSampleCount : Int) - l ≤ fuel →
      ∃ ws, mixTailLoop data perm D m fuel l = some ws ∧
        IsSchedule data.LearnSampleCount l ws ∧
        ∀ w ∈ ws, ∃ l0 : Int, 1 ≤ l0 ∧ l0 < data.LearnSampleCount ∧
          w = makeMixTail data perm D m l0 := by
  intro fuel
  induction fuel with
  | zero =>
    intro l _ hf
    refine ⟨[], mixTailLoop_done data perm D m 0 l (by omega), ?_, by simp⟩
    simp only [IsSchedule]
    omega
  | succ fuel ih =>
    intro l hl hf
    by_cases hlt : l < (data.LearnSampleCount : Int)
    · have hc := lt_ceil_roundedProduct m hm l hl
      have htf := makeMixTail_TailFinish data perm D m l
      rw [hlen] at htf
      have h1 : l < (makeMixTail data perm D m l).TailFinish := by
        rw [htf]; exact lt_min hc hlt
      have h2 : (makeMixTail data perm D m l).TailFinish ≤ data.LearnSampleCount := by
        rw [htf]; exact min_le_right _ _
      obtain ⟨ws, hws, hs, hall⟩ :=
        ih (makeMixTail data perm D m l).TailFinish (by omega) (by omega)
      refine ⟨makeMixTail data perm D m l :: ws, ?_, ?_, ?_⟩
      · rw [mixTailLoop_succ data perm D m fuel l hlt, hws]; rfl
      · exact ⟨hlt, rfl, h1, h2, hs⟩
      · intro w hw
        rcases List.mem_cons.mp hw with rfl | hw
        · exact ⟨l, hl, hlt, rfl⟩
        · exact hall w hw
    · refine ⟨[], mixTailLoop_done data perm D m _ l (by omega), ?_, by simp⟩
      simp only [IsSchedule]
      omega

theorem IsSchedule.bounds {N : Int} : ∀ (ws : List TMixTail) (l : Int), IsSchedule N l ws →
    ∀ w ∈ ws, l ≤ w.MixCount ∧ w.MixCount < w.TailFinish ∧ w.TailFinish ≤ N := by
  intro ws
  induction ws with
  | nil => intro l _ w hw; simp at hw
  | cons v vs ih =>
    intro l h w hw
    obtain ⟨_, h2, h3, h4, h5⟩ := h
    rcases List.mem_cons.mp hw with rfl | hw
    · exact ⟨by omega, by omega, h4⟩
    · have := ih _ h5 w hw
      exact ⟨by omega, this.2.1, this.2.2⟩

theorem IsSchedule.chained {N : Int} : ∀ (ws : List TMixTail) (l : Int), IsSchedule N l ws →
    ∀ (i : Nat) (w v : TMixTail), ws[i]? = some w → ws[i + 1]? = some v →
      v.MixCount = w.TailFinish := by
  intro ws
  induction ws with
  | nil => intro l _ i w v hw; simp at hw
  | cons u us ih =>
    intro l h i w v hw hv
    obtain ⟨_, _, _, _, h5⟩ := h
    cases i with
    | zero =>
      simp only [List.getElem?_cons_zero, Option.some.injEq] at hw
      subst hw
      cases us with
      | nil => simp at hv
      | cons u2 us2 =>
        simp only [zero_add, List.getElem?_cons_succ, List.getElem?_cons_zero,
          Option.some.injEq] at hv
        subst hv
        exact h5.2.1
    | succ i =>
      simp only [List.getElem?_cons_succ] at hw hv
      exact ih _ h5 i w v hw hv

theorem IsSchedule.increasing {N : Int} : ∀ (ws : List TMixTail) (l : Int),
    IsSchedule N l ws → (ws.map (fun w => w.TailFinish)).Pairwise (fun a b => a < b) := by
  intro ws
  induction ws with
  | nil => intro l _; simp
  | cons u us ih =>
    intro l h
    obtain ⟨_, _, _, _, h5⟩ := h
    simp only [List.map_cons, List.pairwise_cons, List.mem_map, forall_exists_index, and_imp,
      forall_apply_eq_imp_iff₂]
    refine ⟨?_, ih _ h5⟩
    intro w hw
    have := IsSchedule.bounds us _ h5 w hw
    omega

theorem IsSchedule.last {N : Int} : ∀ (ws : List TMixTail) (l : Int), IsSchedule N l ws →
    ∀ w, ws.getLast? = some w → w.TailFinish = N := by
  intro ws
  induction ws with
  | nil => intro l _ w hw; simp at hw
  | cons u us ih =>
    intro l h w hw
    obtain ⟨_, _, _, h4, h5⟩ := h
    cases us with
    | nil =>
      simp only [List.getLast?_singleton, Option.some.injEq] at hw
      subst hw
      simp only [IsSchedule] at h5
      omega
    | cons u2 us2 =>
      rw [List.getLast?_cons_cons] at hw
      exact ih _ h5 w hw

/-! ## Baseline initialisation -/

theorem approxAt_setApprox (a : List (List TDouble)) (d p : Nat) (v : TDouble) (d1 p1 : Nat) :
    approxAt (setApprox a d p v) d1 p1 =
      if d = d1 ∧ p = p1 then (approxAt a d p).map (fun _ => v) else approxAt a d1 p1 := by
  unfold approxAt setApprox
  rw [List.getElem?_set]
  by_cases hd : d = d1
  · subst hd
    by_cases hlt : d < a.length
    · simp only [if_true, if_pos hlt, Option.some_bind, List.getElem?_set,
        List.getD_eq_getElem?_getD, List.getElem?_eq_getElem hlt, Option.getD_some, true_and]
      by_cases hp : p = p1
      · subst hp
        by_cases hpl : p < (a[d]).length
        · simp [hpl, List.getElem?_eq_getElem hpl]
        · simp [hpl, List.getElem?_eq_none (by omega : (a[d]).length ≤ p)]
      · simp [hp]
    · simp [hlt, List.getElem?_eq_none (by omega : a.length ≤ d)]
  · simp [hd]

theorem length_setApprox (a : List (List TDouble)) (d p : Nat) (v : TDouble) :
    (setApprox a d p v).length = a.length := by
  simp [setApprox]

/-- The inner loop of `InitFromBaseline` over a list of dimensions. -/
theorem approxAt_foldl_dims (p : Nat) (val : Nat → TDouble) : ∀ (ds : List Nat)
    (a : List (List TDouble)) (d1 p1 : Nat),
    approxAt (ds.foldl (fun a dim => setApprox a dim p (val dim)) a) d1 p1 =
      if p = p1 ∧ d1 ∈ ds then (approxAt a d1 p1).map (fun _ => val d1)
      else approxAt a d1 p1 := by
  intro ds
  induction ds with
  | nil => intro a d1 p1; simp
  | cons d ds ih =>
    intro a d1 p1
    rw [List.foldl_cons, ih, approxAt_setApprox]
    by_cases hp : p = p1
    · subst hp
      by_cases hd : d = d1
      · subst hd
        by_cases hm : d ∈ ds
        · simp [hm, Function.comp_def]
        · simp [hm]
      · have hd1 : ¬ d1 = d := fun h => hd h.symm
        simp [hd, hd1]
    · simp [hp]

theorem approxAt_none_of_length_le (a : List (List TDouble)) (d p : Nat)
    (h : a.length ≤ d) : approxAt a d p = none := by
  simp [approxAt, List.getElem?_eq_none h]

theorem approxAt_initDoc (baseline : List (List TDouble)) (perm : List Nat)
    (a : List (List TDouble)) (p d1 p1 : Nat) :
    approxAt (initDoc baseline perm a p) d1 p1 =
      if p = p1 then
        (approxAt a d1 p1).map (fun _ =>
          baselineAt baseline (if p < perm.length then perm.getD p 0 else p) d1)
      else approxAt a d1 p1 := by
  unfold initDoc
  simp only []
  rw [approxAt_foldl_dims p
    (fun dim => baselineAt baseline (if p < perm.length then perm.getD p 0 else p) dim)]
  by_cases hp : p = p1
  · by_cases hd : d1 < a.length
    · simp [hp, hd]
    · simp [hp, hd, approxAt_none_of_length_le a d1 p1 (by omega)]
  · simp [hp]

theorem approxAt_foldl_docs (baseline : List (List TDouble)) (perm : List Nat) :
    ∀ (ps : List Nat) (a : List (List TDouble)) (d1 p1 : Nat),
    approxAt (ps.foldl (initDoc baseline perm) a) d1 p1 =
      if p1 ∈ ps then
        (approxAt a d1 p1).map (fun _ =>
          baselineAt baseline (if p1 < perm.length then perm.getD p1 0 else p1) d1)
      else approxAt a d1 p1 := by
  intro ps
  induction ps with
  | nil => intro a d1 p1; simp
  | cons p ps ih =>
    intro a d1 p1
    rw [List.foldl_cons, ih, approxAt_initDoc]
    by_cases hp : p = p1
    · subst hp
      by_cases hm : p ∈ ps
      · simp [hm, Function.comp_def]
      · simp [hm]
    · have hp1 : ¬ p1 = p := fun h => hp h.symm
      simp [hp, hp1]

/-- What `InitFromBaseline` leaves in every cell of the buffer. -/
theorem approxAt_InitFromBaseline (beginIdx endIdx : Int) (baseline : List (List TDouble))
    (perm : List Nat) (a : List (List TDouble)) (d1 p1 : Nat) :
    approxAt (InitFromBaseline beginIdx endIdx baseline perm a) d1 p1 =
      if beginIdx.toNat ≤ p1 ∧ p1 < endIdx.toNat then
        (approxAt a d1 p1).map (fun _ =>
          baselineAt baseline (if p1 < perm.length then perm.getD p1 0 else p1) d1)
      else approxAt a d1 p1 := by
  unfold InitFromBaseline
  rw [approxAt_foldl_docs]
  have hiff : p1 ∈ List.range' beginIdx.toNat (endIdx.toNat - beginIdx.toNat) ↔
      (beginIdx.toNat ≤ p1 ∧ p1 < endIdx.toNat) := by
    rw [List.mem_range'_1]
    omega
  by_cases h : beginIdx.toNat ≤ p1 ∧ p1 < endIdx.toNat
  · rw [if_pos (hiff.mpr h), if_pos h]
  · rw [if_neg (fun hm => h (hiff.mp hm)), if_neg h]

theorem approxAt_zeroBuffer (D n d p : Nat) :
    approxAt (zeroBuffer D n) d p = if d < D ∧ p < n then some 0 else none := by
  unfold approxAt zeroBuffer
  by_cases hd : d < D
  · by_cases hp : p < n
    · simp [hd, hp, List.getElem?_replicate]
    · simp [hd, hp, List.getElem?_replicate]
  · simp [hd, List.getElem?_replicate]

/-! ## The two builders -/

theorem BuildLearnFold_eq_some (fuel : Nat) (data : TTrainData)
    (cls : List TTargetClassifier) (shuffle : Bool) (B D : Nat) (m : ℚ)
    (rand : TRestorableFastRng64) (ff : TFold)
    (h : BuildLearnFold fuel data cls shuffle B D m rand = some ff) :
    ff.LearnPermutation = learnPermutation data.LearnSampleCount shuffle B rand ∧
      mixTailLoop data (learnPermutation data.LearnSampleCount shuffle B rand) D m fuel
        (SelectMinBatchSize data.LearnSampleCount) = some ff.MixTailArr := by
  cases hW : data.Weights.isEmpty
  all_goals
    simp only [BuildLearnFold, TFold.AssignTarget, hW, Bool.not_false, Bool.not_true, if_true,
      Bool.false_eq_true, if_false, Option.map_eq_some'] at h
    obtain ⟨ws, hws, hff⟩ := h
    subst hff
    exact ⟨rfl, by simpa using hws⟩

theorem BuildLearnFold_of_loop (fuel : Nat) (data : TTrainData)
    (cls : List TTargetClassifier) (shuffle : Bool) (B D : Nat) (m : ℚ)
    (rand : TRestorableFastRng64) (ws : List TMixTail)
    (h : mixTailLoop data (learnPermutation data.LearnSampleCount shuffle B rand) D m fuel
        (SelectMinBatchSize data.LearnSampleCount) = some ws) :
    ∃ ff, BuildLearnFold fuel data cls shuffle B D m rand = some ff := by
  cases hW : data.Weights.isEmpty
  all_goals
    simp only [BuildLearnFold, TFold.AssignTarget, hW, Bool.not_false, Bool.not_true, if_true,
      Bool.false_eq_true, if_false]
    rw [h]
    exact ⟨_, rfl⟩

/-- With a multiplier above one and fuel for `N` iterations `BuildLearnFold` returns a
fold: its permutation is the one of the permutation stage and its windows form a
schedule from `SelectMinBatchSize N` to `N`, each made by `makeMixTail`. -/
theorem BuildLearnFold_returns (fuel : Nat) (data : TTrainData)
    (cls : List TTargetClassifier) (shuffle : Bool) (B D : Nat) (m : ℚ)
    (rand : TRestorableFastRng64) (hm : 1 < m)
    (hrand : ShufflePermutes rand) (hfuel : data.LearnSampleCount ≤ fuel) :
    ∃ ff, BuildLearnFold fuel data cls shuffle B D m rand = some ff ∧
      ff.LearnPermutation = learnPermutation data.LearnSampleCount shuffle B rand ∧
      IsSchedule data.LearnSampleCount (SelectMinBatchSize data.LearnSampleCount)
        ff.MixTailArr ∧
      ∀ w ∈ ff.MixTailArr, ∃ l0 : Int, 1 ≤ l0 ∧ l0 < data.LearnSampleCount ∧
        w = makeMixTail data ff.LearnPermutation D m l0 := by
  have hb := SelectMinBatchSize_pos data.LearnSampleCount
  obtain ⟨ws, hws, hs, hall⟩ := mixTailLoop_schedule data
    (learnPermutation data.LearnSampleCount shuffle B rand) D m hm
    (learnPermutation_length _ B shuffle rand hrand) fuel
    (SelectMinBatchSize data.LearnSampleCount) hb (by omega)
  obtain ⟨ff, hff⟩ := BuildLearnFold_of_loop fuel data cls shuffle B D m rand ws hws
  obtain ⟨h1, h2⟩ := BuildLearnFold_eq_some fuel data cls shuffle B D m rand ff hff
  rw [hws, Option.some.injEq] at h2
  subst h2
  exact ⟨ff, hff, h1, hs, by rw [h1]; exact hall⟩

theorem BuildAveragingFold_LearnPermutation (data : TTrainData)
    (cls : List TTargetClassifier) (shuffle : Bool) (D : Nat) (rand : TRestorableFastRng64) :
    (BuildAveragingFold data cls shuffle D rand).LearnPermutation =
      if shuffle then Shuffle (List.range data.LearnSampleCount) rand
      else List.range data.LearnSampleCount := by
  cases hW : data.Weights.isEmpty <;>
    simp [BuildAveragingFold, TFold.AssignTarget, hW]

theorem BuildAveragingFold_MixTailArr (data : TTrainData)
    (cls : List TTargetClassifier) (shuffle : Bool) (D : Nat) (rand : TRestorableFastRng64) :
    (BuildAveragingFold data cls shuffle D rand).MixTailArr =
      [{ MixCount := data.LearnSampleCount
         TailFinish := data.LearnSampleCount
         Approx :=
          if hasBaseline data then
            InitFromBaseline 0 data.GetSampleCount data.Baseline
              (BuildAveragingFold data cls shuffle D rand).LearnPermutation
              (zeroBuffer D data.GetSampleCount)
          else zeroBuffer D data.GetSampleCount
         WeightedDer := zeroBuffer D data.GetSampleCount }] := by
  cases hW : data.Weights.isEmpty <;>
    simp [BuildAveragingFold, TFold.AssignTarget, hW]

theorem averaging_permutation_perm (data : TTrainData) (cls : List TTargetClassifier)
    (shuffle : Bool) (D : Nat) (rand : TRestorableFastRng64) (hrand : ShufflePermutes rand) :
    (BuildAveragingFold data cls shuffle D rand).LearnPermutation.Perm
      (List.range data.LearnSampleCount) := by
  rw [BuildAveragingFold_LearnPermutation]
  cases shuffle with
  | false => simp
  | true => simpa using hrand _

/-! ## Checkpoint of the `Approx` buffers -/

theorem loadItems_append : ∀ (v : List TDouble) (rest : TStream),
    loadItems v.length (v ++ rest) = .ok (v, rest) := by
  intro v
  induction v with
  | nil => intro rest; rfl
  | cons x v ih =>
    intro rest
    simp only [List.length_cons, List.cons_append, loadItems, List.append_eq, ih]

theorem SaveVector_eq (s : TStream) (v : List TDouble) :
    SaveVector s v = s ++ (v.length :: v) := by
  simp [SaveVector, SaveUi64]

theorem LoadVector_saved (v : List TDouble) (rest : TStream) :
    LoadVector ((v.length :: v) ++ rest) = .ok (v, rest) := by
  simp only [LoadVector, List.cons_append, LoadUi64, loadItems_append]

theorem foldl_SaveVector : ∀ (rows : List (List TDouble)) (s : TStream),
    rows.foldl SaveVector s = s ++ rows.flatMap (fun v => v.length :: v) := by
  intro rows
  induction rows with
  | nil => intro s; simp
  | cons v rows ih =>
    intro s
    rw [List.foldl_cons, ih, SaveVector_eq, List.flatMap_cons, List.append_assoc]

theorem SaveBuffer_eq (s : TStream) (approx : List (List TDouble)) :
    SaveBuffer s approx = s ++ (approx.length :: approx.flatMap (fun v => v.length :: v)) := by
  simp [SaveBuffer, SaveUi64, foldl_SaveVector]

theorem loadRows_append : ∀ (rows : List (List TDouble)) (rest : TStream),
    loadRows rows.length (rows.flatMap (fun v => v.length :: v) ++ rest) = .ok (rows, rest) := by
  intro rows
  induction rows with
  | nil => intro rest; rfl
  | cons v rows ih =>
    intro rest
    rw [List.flatMap_cons, List.append_assoc]
    simp only [List.length_cons, loadRows, LoadVector_saved, ih]

/-- Loading a buffer from what `SaveBuffer` wrote returns the buffer and stops right
after it. -/
theorem LoadBuffer_saved (approx : List (List TDouble)) (rest : TStream) :
    LoadBuffer (SaveBuffer [] approx ++ rest) = .ok (approx, rest) := by
  rw [SaveBuffer_eq]
  simp only [List.nil_append, List.cons_append, LoadBuffer, LoadUi64, loadRows_append]

theorem foldl_SaveBuffer : ∀ (ws : List TMixTail) (s : TStream),
    ws.foldl (fun s w => SaveBuffer s w.Approx) s =
      s ++ ws.flatMap (fun w => SaveBuffer [] w.Approx) := by
  intro ws
  induction ws with
  | nil => intro s; simp
  | cons w ws ih =>
    intro s
    rw [List.foldl_cons, ih, List.flatMap_cons, SaveBuffer_eq s, SaveBuffer_eq []]
    simp

theorem SaveApproxes_eq (ff : TFold) (s : TStream) :
    ff.SaveApproxes s =
      s ++ (ff.MixTailArr.length :: ff.MixTailArr.flatMap (fun w => SaveBuffer [] w.Approx)) := by
  have h := foldl_SaveBuffer ((List.range ff.MixTailArr.length).map
    (fun i => ff.MixTailArr.getD i {})) (SaveUi64 s ff.MixTailArr.length)
  rw [List.foldl_map, map_getD_range] at h
  simp only [TFold.SaveApproxes]
  rw [h]
  simp [SaveUi64]

/-- The load loop run over the saved buffers of the windows `fs`: no error, the stream
is read up to the end of the saved data, and the windows `i, i + 1, ...` of the fold
receive the saved buffers. -/
theorem loadLoop_saved : ∀ (fs : List TMixTail) (i : Nat) (g : TFold) (rest : TStream),
    (loadLoop fs.length i g (fs.flatMap (fun w => SaveBuffer [] w.Approx) ++ rest)).Error
        = none ∧
      (loadLoop fs.length i g (fs.flatMap (fun w => SaveBuffer [] w.Approx) ++ rest)).Rest
        = rest ∧
      ∀ k, ((loadLoop fs.length i g
          (fs.flatMap (fun w => SaveBuffer [] w.Approx) ++ rest)).Fold.MixTailArr[k]?).map
            (fun w => w.Approx) =
        if i ≤ k ∧ k < i + fs.length ∧ k < g.MixTailArr.length then
          some (fs.getD (k - i) {}).Approx
        else (g.MixTailArr[k]?).map (fun w => w.Approx) := by
  intro fs
  induction fs with
  | nil =>
    intro i g rest
    refine ⟨rfl, rfl, ?_⟩
    intro k
    have hc : ¬ (i ≤ k ∧ k < i + ([] : List TMixTail).length ∧ k < g.MixTailArr.length) := by
      simp only [List.length_nil]
      omega
    rw [if_neg hc]
    rfl
  | cons f fs ih =>
    intro i g rest
    rw [List.flatMap_cons, List.append_assoc]
    simp only [List.length_cons, loadLoop, LoadBuffer_saved]
    obtain ⟨h1, h2, h3⟩ := ih (i + 1)
      { g with MixTailArr := g.MixTailArr.set i { g.MixTailArr.getD i {} with Approx := f.Approx } }
      rest
    refine ⟨h1, h2, ?_⟩
    intro k
    rw [h3 k]
    simp only [List.length_set, List.getElem?_set]
    by_cases hk : i = k
    · subst hk
      by_cases hlt : i < g.MixTailArr.length
      · have hc1 : ¬ (i + 1 ≤ i ∧ i < i + 1 + fs.length ∧ i < g.MixTailArr.length) := by omega
        have hc2 : i ≤ i ∧ i < i + (fs.length + 1) ∧ i < g.MixTailArr.length := by omega
        rw [if_neg hc1, if_pos hc2]
        simp [hlt]
      · have hc1 : ¬ (i + 1 ≤ i ∧ i < i + 1 + fs.length ∧ i < g.MixTailArr.length) := by omega
        have hc2 : ¬ (i ≤ i ∧ i < i + (fs.length + 1) ∧ i < g.MixTailArr.length) := by omega
        rw [if_neg hc1, if_neg hc2]
        simp [hlt, List.getElem?_eq_none (by omega : g.MixTailArr.length ≤ i)]
    · by_cases hc : i + 1 ≤ k ∧ k < i + 1 + fs.length ∧ k < g.MixTailArr.length
      · have hc2 : i ≤ k ∧ k < i + (fs.length + 1) ∧ k < g.MixTailArr.length := by omega
        rw [if_pos hc, if_pos hc2]
        have hki : k - i = (k - (i + 1)) + 1 := by omega
        rw [hki, List.getD_cons_succ]
      · have hc2 : ¬ (i ≤ k ∧ k < i + (fs.length + 1) ∧ k < g.MixTailArr.length) := by omega
        rw [if_neg hc, if_neg hc2, if_neg hk]

theorem loadItems_error : ∀ (count : Nat) (s : TStream) (e : TLoadError),
    loadItems count s = .error e → e = .EndOfStream := by
  intro count
  induction count with
  | zero => intro s e h; simp [loadItems] at h
  | succ count ih =>
    intro s e h
    cases s with
    | nil =>
      simp only [loadItems, Except.error.injEq] at h
      exact h.symm
    | cons x s =>
      simp only [loadItems] at h
      cases hl : loadItems count s with
      | error e2 =>
        rw [hl] at h
        simp only [Except.error.injEq] at h
        rw [← h]
        exact ih s e2 hl
      | ok r =>
        rw [hl] at h
        simp at h

theorem LoadUi64_error (s : TStream) (e : TLoadError) (h : LoadUi64 s = .error e) :
    e = .EndOfStream := by
  cases s with
  | nil =>
    simp only [LoadUi64, Except.error.injEq] at h
    exact h.symm
  | cons x s => simp [LoadUi64] at h

theorem LoadVector_error (s : TStream) (e : TLoadError) (h : LoadVector s = .error e) :
    e = .EndOfStream := by
  unfold LoadVector at h
  cases hl : LoadUi64 s with
  | error e2 =>
    rw [hl] at h
    simp only [Except.error.injEq] at h
    rw [← h]
    exact LoadUi64_error s e2 hl
  | ok r =>
    rw [hl] at h
    exact loadItems_error _ _ e h

theorem loadRows_error : ∀ (count : Nat) (s : TStream) (e : TLoadError),
    loadRows count s = .error e → e = .EndOfStream := by
  intro count
  induction count with
  | zero => intro s e h; simp [loadRows] at h
  | succ count ih =>
    intro s e h
    simp only [loadRows] at h
    cases hv : LoadVector s with
    | error e2 =>
      rw [hv] at h
      simp only [Except.error.injEq] at h
      rw [← h]
      exact LoadVector_error s e2 hv
    | ok r =>
      rw [hv] at h
      simp only at h
      cases hr : loadRows count r.2 with
      | error e3 =>
        rw [hr] at h
        simp only [Except.error.injEq] at h
        rw [← h]
        exact ih _ e3 hr
      | ok r2 =>
        rw [hr] at h
        simp at h

theorem LoadBuffer_error (s : TStream) (e : TLoadError) (h : LoadBuffer s = .error e) :
    e = .EndOfStream := by
  unfold LoadBuffer at h
  cases hl : LoadUi64 s with
  | error e2 =>
    rw [hl] at h
    simp only [Except.error.injEq] at h
    rw [← h]
    exact LoadUi64_error s e2 hl
  | ok r =>
    rw [hl] at h
    exact loadRows_error _ _ e h

/-- The load loop throws nothing but the end-of-stream error of `::Load`. -/
theorem loadLoop_error : ∀ (todo i : Nat) (g : TFold) (s : TStream),
    (loadLoop todo i g s).Error ≠ some .SchemaMismatch := by
  intro todo
  induction todo with
  | zero => intro i g s; simp [loadLoop]
  | succ todo ih =>
    intro i g s
    simp only [loadLoop]
    cases hb : LoadBuffer s with
    | error e =>
      simp only [ne_eq, Option.some.injEq]
      rw [LoadBuffer_error s e hb]
      decide
    | ok r => exact ih _ _ _

/-! ## Two schedules worked out -/

/-- One turn of the loop when the end of the window is known. -/
theorem mixTailLoop_step (data : TTrainData) (perm : List Nat) (D : Nat) (m : ℚ)
    (fuel : Nat) (l tf : Int) (hl : l < (data.LearnSampleCount : Int))
    (htf : min ⌈roundedProduct l m⌉ (perm.length : Int) = tf) :
    mixTailLoop data perm D m (fuel + 1) l =
      (mixTailLoop data perm D m fuel tf).map (fun rest =>
        ({ MixCount := l
           TailFinish := tf
           Approx :=
             if hasBaseline data then
               InitFromBaseline l tf data.Baseline perm (zeroBuffer D tf.toNat)
             else zeroBuffer D tf.toNat
           Derivatives := zeroBuffer D tf.toNat
           WeightedDer := zeroBuffer D tf.toNat } : TMixTail) :: rest) := by
  subst htf
  exact mixTailLoop_succ data perm D m fuel l hl

/-- The end of a window whose product is a double. -/
theorem tailFinish_exact (l : Int) (m : ℚ) (n : Nat) (k t c : Int)
    (hx : (l : ℚ) * m = (k : ℚ) * 2 ^ t) (hk : |k| < 2 ^ 53) (ht : -1074 ≤ t)
    (hc1 : (c : ℚ) - 1 < (l : ℚ) * m) (hc2 : (l : ℚ) * m ≤ c) :
    min ⌈roundedProduct l m⌉ (n : Int) = min c n := by
  rw [roundedProduct_exact l m k t hx hk ht, Int.ceil_eq_iff.mpr ⟨hc1, hc2⟩]

/-- The learn fold of `sampleData` with blocks of three in reversed order, dimension `2`
and the multiplier `1.5`: its permutation and its four windows. -/
theorem sampleData_learnFold (ff : TFold)
    (h : BuildLearnFold 7 sampleData [] true 3 2 (3 / 2) List.reverse = some ff) :
    ff.LearnPermutation = [6, 3, 4, 5, 0, 1, 2] ∧ ff.MixTailArr = sampleWindows := by
  obtain ⟨hperm, hloop⟩ := BuildLearnFold_eq_some 7 sampleData [] true 3 2 (3 / 2) _ ff h
  have hp : learnPermutation sampleData.LearnSampleCount true 3 List.reverse =
      [6, 3, 4, 5, 0, 1, 2] := by decide
  have hS : SelectMinBatchSize ((sampleData.LearnSampleCount : Nat) : Int) = 1 := by decide
  rw [hp] at hperm hloop
  rw [hS] at hloop
  refine ⟨hperm, ?_⟩
  have e1 : min ⌈roundedProduct 1 (3 / 2)⌉ ((([6, 3, 4, 5, 0, 1, 2] : List Nat).length : Nat) : Int)
      = 2 := by
    rw [tailFinish_exact 1 (3 / 2) _ 3 (-1) 2 (by norm_num) (by norm_num) (by norm_num)
      (by norm_num) (by norm_num)]
    decide
  have e2 : min ⌈roundedProduct 2 (3 / 2)⌉ ((([6, 3, 4, 5, 0, 1, 2] : List Nat).length : Nat) : Int)
      = 3 := by
    rw [tailFinish_exact 2 (3 / 2) _ 3 0 3 (by norm_num) (by norm_num) (by norm_num)
      (by norm_num) (by norm_num)]
    decide
  have e3 : min ⌈roundedProduct 3 (3 / 2)⌉ ((([6, 3, 4, 5, 0, 1, 2] : List Nat).length : Nat) : Int)
      = 5 := by
    rw [tailFinish_exact 3 (3 / 2) _ 9 (-1) 5 (by norm_num) (by norm_num) (by norm_num)
      (by norm_num) (by norm_num)]
    decide
  have e4 : min ⌈roundedProduct 5 (3 / 2)⌉ ((([6, 3, 4, 5, 0, 1, 2] : List Nat).length : Nat) : Int)
      = 7 := by
    rw [tailFinish_exact 5 (3 / 2) _ 15 (-1) 8 (by norm_num) (by norm_num) (by norm_num)
      (by norm_num) (by norm_num)]
    decide
  rw [mixTailLoop_step sampleData _ 2 (3 / 2) 6 1 2 (by decide) e1,
    mixTailLoop_step sampleData _ 2 (3 / 2) 5 2 3 (by decide) e2,
    mixTailLoop_step sampleData _ 2 (3 / 2) 4 3 5 (by decide) e3,
    mixTailLoop_step sampleData _ 2 (3 / 2) 3 5 7 (by decide) e4,
    mixTailLoop_done sampleData _ 2 (3 / 2) 3 7 (by decide)] at hloop
  simp only [Option.map_some', Option.some.injEq] at hloop
  rw [← hloop]
  decide

/-- The value `onePointOne` is a double. -/
theorem isDouble_onePointOne : IsDouble onePointOne :=
  roundToDouble_of_mantissa onePointOne 4953959590107546 (-52)
    (by unfold onePointOne; norm_num) (by norm_num) (by norm_num)

/-- The double product `10 * 1.1` is `11`: the exact product `11 + 2 ^ (-50)` lies
halfway between the doubles `11` and `11 + 2 ^ (-49)` and the tie goes to the even
mantissa, that of `11`. -/
theorem roundedProduct_ten_onePointOne : roundedProduct 10 onePointOne = 11 := by
  unfold roundedProduct
  rw [if_pos isDouble_onePointOne]
  have hk : roundHalfEven (((10 : Int) : ℚ) * onePointOne / 2 ^ ((3 : Int) - 52)) =
      6192449487634432 :=
    roundHalfEven_tie_even _ 6192449487634432 (by unfold onePointOne; norm_num) (by decide)
  rw [roundToDouble_eq (((10 : Int) : ℚ) * onePointOne) 3 6192449487634432
    (by unfold onePointOne; norm_num) (by unfold onePointOne; norm_num)
    (by unfold onePointOne; norm_num) (by norm_num) hk]
  norm_num

/-- The exact product `10 * 1.1` is above `11`, so that its ceiling is `12`. -/
theorem ceil_ten_onePointOne : ⌈(10 : ℚ) * onePointOne⌉ = 12 := by
  rw [Int.ceil_eq_iff]
  unfold onePointOne
  norm_num

/-- The first window that `BuildLearnFold` makes of 520 samples with the multiplier
`1.1` is `(10, 11)`. -/
theorem data520_first_window (fuel : Nat) (ff : TFold)
    (h : BuildLearnFold (fuel + 1) data520 [] false 1 1 onePointOne id = some ff) :
    ff.MixTailArr.head?.map (fun w => (w.MixCount, w.TailFinish)) = some (10, 11) := by
  obtain ⟨hperm, hloop⟩ :=
    BuildLearnFold_eq_some (fuel + 1) data520 [] false 1 1 onePointOne id ff h
  have hS : SelectMinBatchSize ((data520.LearnSampleCount : Nat) : Int) = 10 := by decide
  have hlen : (learnPermutation data520.LearnSampleCount false 1 id).length = 520 :=
    learnPermutation_length 520 1 false id (fun v => List.Perm.refl v)
  have e1 : min ⌈roundedProduct 10 onePointOne⌉
      (((learnPermutation data520.LearnSampleCount false 1 id).length : Nat) : Int) = 11 := by
    rw [roundedProduct_ten_onePointOne, hlen]
    norm_num
  rw [hS, mixTailLoop_step data520 _ 1 onePointOne fuel 10 11 (by decide) e1,
    Option.map_eq_some'] at hloop
  obtain ⟨rest, _, hrest⟩ := hloop
  rw [← hrest]
  rfl

/-! ## Properties of the specification -/

/-- C1: for a learn sample count `N` (in particular `N ≥ 1`), a block size `B ≥ 1`,
either value of the shuffle flag and whatever rearrangement `Shuffle` returns, the
`LearnPermutation` of every fold returned by `BuildLearnFold` has length `N` and holds
every index of `[0, N)` exactly once; with a multiplier above one and fuel for `N`
iterations a fold is returned; and the `LearnPermutation` built by `BuildAveragingFold`
has the same property. -/
theorem learn_permutation_bijective (data : TTrainData) (cls : List TTargetClassifier)
    (shuffle : Bool) (B D : Nat) (rand : TRestorableFastRng64)
    (hB : 1 ≤ B) (hrand : ShufflePermutes rand) :
    (∀ (fuel : Nat) (m : ℚ) (ff : TFold),
        BuildLearnFold fuel data cls shuffle B D m rand = some ff →
        ff.LearnPermutation.length = data.LearnSampleCount ∧
          ∀ i, i < data.LearnSampleCount → ff.LearnPermutation.count i = 1) ∧
    (∀ (fuel : Nat) (m : ℚ), data.LearnSampleCount ≤ fuel → 1 < m →
        ∃ ff, BuildLearnFold fuel data cls shuffle B D m rand = some ff) ∧
    ((BuildAveragingFold data cls shuffle D rand).LearnPermutation.length =
        data.LearnSampleCount ∧
      ∀ i, i < data.LearnSampleCount →
        (BuildAveragingFold data cls shuffle D rand).LearnPermutation.count i = 1) := by
  refine ⟨?_, ?_, ?_⟩
  · intro fuel m ff hff
    rw [(BuildLearnFold_eq_some fuel data cls shuffle B D m rand ff hff).1]
    exact perm_range_bijection _ _ (learnPermutation_perm _ B shuffle rand hB hrand)
  · intro fuel m hfuel hm
    obtain ⟨ff, hff, _⟩ := BuildLearnFold_returns fuel data cls shuffle B D m rand hm hrand hfuel
    exact ⟨ff, hff⟩
  · exact perm_range_bijection _ _ (averaging_permutation_perm data cls shuffle D rand hrand)

theorem learn_permutation_bijective_witness :
    1 ≤ sampleData.LearnSampleCount ∧ ShufflePermutes List.reverse ∧
      (BuildAveragingFold sampleData [] true 2 List.reverse).LearnPermutation.length = 7 ∧
      ∃ ff, BuildLearnFold 7 sampleData [] true 3 2 (3 / 2) List.reverse = some ff ∧
        ff.LearnPermutation.count 4 = 1 :=
  have h := learn_permutation_bijective sampleData [] true 3 2 List.reverse (by decide)
    (fun v => List.reverse_perm v)
  ⟨by decide, fun v => List.reverse_perm v, h.2.2.1,
    (h.2.1 7 (3 / 2) (by decide) (by norm_num)).elim
      (fun ff hff => ⟨ff, hff, (h.1 7 (3 / 2) ff hff).2 4 (by decide)⟩)⟩

/-- C2: with `shuffle == true`, a block size `B > 1` and `sigma` the rearrangement of
the `ceil(N / B)` block indices returned by `Shuffle`, the `LearnPermutation` of every
fold returned by `BuildLearnFold` is the concatenation over `sigma` of the blocks
`[sigma(i) * B, min(sigma(i) * B + B, N))`, each in ascending order; hence two indices
`x < y` of one original block appear in that order, `y - x` positions apart. With a
multiplier above one and fuel for `N` iterations a fold is returned. -/
theorem block_shuffle_concatenates_blocks (data : TTrainData)
    (cls : List TTargetClassifier) (B D : Nat) (rand : TRestorableFastRng64)
    (hB : 1 < B) (hrand : ShufflePermutes rand) :
    (∀ (fuel : Nat) (m : ℚ) (ff : TFold),
        BuildLearnFold fuel data cls true B D m rand = some ff →
        ff.LearnPermutation =
            (Shuffle (List.range ((data.LearnSampleCount + B - 1) / B)) rand).flatMap
              (fun b => List.range' (b * B) (min (b * B + B) data.LearnSampleCount - b * B)) ∧
          ∀ x y, x < y → y < data.LearnSampleCount → x / B = y / B →
            ∃ p, ff.LearnPermutation[p]? = some x ∧
              ff.LearnPermutation[p + (y - x)]? = some y) ∧
    (∀ (fuel : Nat) (m : ℚ), data.LearnSampleCount ≤ fuel → 1 < m →
        ∃ ff, BuildLearnFold fuel data cls true B D m rand = some ff) := by
  refine ⟨?_, ?_⟩
  · intro fuel m ff hff
    rw [(BuildLearnFold_eq_some fuel data cls true B D m rand ff hff).1,
      learnPermutation_blocked _ B rand hB hrand]
    exact ⟨rfl, fun x y hxy hy hb =>
      blocks_keep_order data.LearnSampleCount B _ (by omega) (hrand _) x y hxy hy hb⟩
  · intro fuel m hfuel hm
    obtain ⟨ff, hff, _⟩ := BuildLearnFold_returns fuel data cls true B D m rand hm hrand hfuel
    exact ⟨ff, hff⟩

theorem block_shuffle_concatenates_blocks_witness :
    1 < 3 ∧ ShufflePermutes List.reverse ∧
      ∃ ff, BuildLearnFold 7 sampleData [] true 3 2 (3 / 2) List.reverse = some ff ∧
        ff.LearnPermutation = [6, 3, 4, 5, 0, 1, 2] :=
  have h := block_shuffle_concatenates_blocks sampleData [] 3 2 List.reverse (by decide)
    (fun v => List.reverse_perm v)
  ⟨by decide, fun v => List.reverse_perm v,
    (h.2 7 (3 / 2) (by decide) (by norm_num)).elim
      (fun ff hff => ⟨ff, hff, ((h.1 7 (3 / 2) ff hff).1).trans (by decide)⟩)⟩

/-- C3: for a learn fold built by `BuildLearnFold` with `N` samples and a multiplier
`m > 1` (the fold is returned once the fuel covers `N` iterations): every window after
the first has `MixCount` equal to the `TailFinish` of the window before it, the
`TailFinish` values are strictly increasing along the schedule, and the last window has
`TailFinish == N`. The schedule these statements speak of is there: it holds a window
as soon as `N ≥ 2`, and its first window starts at `SelectMinBatchSize N`, so that it
runs from `SelectMinBatchSize N` up to `N`. -/
theorem window_schedule_chained (fuel : Nat) (data : TTrainData)
    (cls : List TTargetClassifier) (shuffle : Bool) (B D : Nat) (m : ℚ)
    (rand : TRestorableFastRng64) (hm : 1 < m) (hrand : ShufflePermutes rand)
    (hfuel : data.LearnSampleCount ≤ fuel) :
    ∃ ff, BuildLearnFold fuel data cls shuffle B D m rand = some ff ∧
      (2 ≤ data.LearnSampleCount → ff.MixTailArr ≠ []) ∧
      (∀ w, ff.MixTailArr.head? = some w →
        w.MixCount = SelectMinBatchSize data.LearnSampleCount) ∧
      (∀ (i : Nat) (w v : TMixTail), ff.MixTailArr[i]? = some w →
        ff.MixTailArr[i + 1]? = some v → v.MixCount = w.TailFinish) ∧
      (ff.MixTailArr.map (fun w => w.TailFinish)).Pairwise (fun a b => a < b) ∧
      (∀ w, ff.MixTailArr.getLast? = some w → w.TailFinish = data.LearnSampleCount) := by
  obtain ⟨ff, hff, _, hs, _⟩ :=
    BuildLearnFold_returns fuel data cls shuffle B D m rand hm hrand hfuel
  refine ⟨ff, hff, ?_, ?_, IsSchedule.chained _ _ hs, IsSchedule.increasing _ _ hs,
    IsSchedule.last _ _ hs⟩
  · intro h2 hnil
    rw [hnil] at hs
    simp only [IsSchedule] at hs
    have := SelectMinBatchSize_lt data.LearnSampleCount (by omega)
    omega
  · intro w hw
    cases hws : ff.MixTailArr with
    | nil => rw [hws] at hw; simp at hw
    | cons v vs =>
      rw [hws] at hs hw
      simp only [List.head?_cons, Option.some.injEq] at hw
      rw [← hw]
      exact hs.2.1

theorem window_schedule_chained_witness :
    (1 : ℚ) < 3 / 2 ∧ ShufflePermutes List.reverse ∧
      ∃ ff, BuildLearnFold 7 sampleData [] true 3 2 (3 / 2) List.reverse = some ff ∧
        ff.MixTailArr.map (fun w => (w.MixCount, w.TailFinish)) =
          [(1, 2), (2, 3), (3, 5), (5, 7)] ∧
        ff.MixTailArr ≠ [] ∧
        (ff.MixTailArr.map (fun w => w.TailFinish)).Pairwise (fun a b => a < b) ∧
        (∀ w, ff.MixTailArr.getLast? = some w → w.TailFinish = 7) := by
  refine ⟨by norm_num, fun v => List.reverse_perm v, ?_⟩
  obtain ⟨ff, hff, hne, _, _, hinc, hlast⟩ :=
    window_schedule_chained 7 sampleData [] true 3 2 (3 / 2) List.reverse (by norm_num)
      (fun v => List.reverse_perm v) (by decide)
  refine ⟨ff, hff, ?_, hne (by decide), hinc, hlast⟩
  rw [(sampleData_learnFold ff hff).2]
  decide

/-- C4, as the code has it: for a learn sample count `N > 0` and a multiplier `m > 1`
the window schedule built by `BuildLearnFold` holds at least one window exactly when
`N ≥ 2`; for `N == 1` it is empty. -/
theorem schedule_nonempty_iff_two_samples (fuel : Nat) (data : TTrainData)
    (cls : List TTargetClassifier) (shuffle : Bool) (B D : Nat) (m : ℚ)
    (rand : TRestorableFastRng64) (hN : 0 < data.LearnSampleCount) (hm : 1 < m)
    (hrand : ShufflePermutes rand) (hfuel : data.LearnSampleCount ≤ fuel) :
    ∃ ff, BuildLearnFold fuel data cls shuffle B D m rand = some ff ∧
      (ff.MixTailArr ≠ [] ↔ 2 ≤ data.LearnSampleCount) := by
  obtain ⟨ff, hff, _, hs, _⟩ :=
    BuildLearnFold_returns fuel data cls shuffle B D m rand hm hrand hfuel
  refine ⟨ff, hff, ?_, ?_⟩
  · intro hne
    cases hws : ff.MixTailArr with
    | nil => exact absurd hws hne
    | cons w ws =>
      rw [hws] at hs
      have h1 := hs.1
      have h2 := SelectMinBatchSize_pos data.LearnSampleCount
      omega
  · intro h2 hnil
    rw [hnil] at hs
    simp only [IsSchedule] at hs
    have := SelectMinBatchSize_lt data.LearnSampleCount (by omega)
    omega

theorem schedule_nonempty_iff_two_samples_witness :
    0 < sampleData.LearnSampleCount ∧ (1 : ℚ) < 3 / 2 ∧
      ∃ ff, BuildLearnFold 7 sampleData [] true 3 2 (3 / 2) List.reverse = some ff ∧
        ff.MixTailArr.length = 4 ∧
        (ff.MixTailArr ≠ [] ↔ 2 ≤ sampleData.LearnSampleCount) := by
  refine ⟨by decide, by norm_num, ?_⟩
  obtain ⟨ff, hff, hiff⟩ :=
    schedule_nonempty_iff_two_samples 7 sampleData [] true 3 2 (3 / 2) List.reverse
      (by decide) (by norm_num) (fun v => List.reverse_perm v) (by decide)
  refine ⟨ff, hff, ?_, hiff⟩
  rw [(sampleData_learnFold ff hff).2]
  decide

/-- C4 fails for a single learn sample: `SelectMinBatchSize 1 = 1` is not below `1`, the
loop body never runs and the fold is returned with an empty schedule. -/
theorem schedule_empty_for_one_sample :
    0 < oneLearnSample.LearnSampleCount ∧ (1 : ℚ) < 2 ∧
      (BuildLearnFold 1 oneLearnSample [] false 1 1 2 id).map (fun ff => ff.MixTailArr)
        = some [] := by
  refine ⟨by decide, by norm_num, ?_⟩
  simp [BuildLearnFold, TFold.AssignTarget, oneLearnSample, mixTailLoop, SelectMinBatchSize]

/-- C5, as the code has it: the fold built by `BuildAveragingFold` from a dataset with
learn sample count `L` and total sample count `M` has exactly one window, with
`MixCount == L` and `TailFinish == L`; it is the `Approx` buffer of that window, not
`TailFinish`, that spans the `M` samples. -/
theorem averaging_fold_single_window (data : TTrainData) (cls : List TTargetClassifier)
    (shuffle : Bool) (D : Nat) (rand : TRestorableFastRng64) :
    ∃ w, (BuildAveragingFold data cls shuffle D rand).MixTailArr = [w] ∧
      w.MixCount = data.LearnSampleCount ∧ w.TailFinish = data.LearnSampleCount ∧
      ∀ dim pos, (approxAt w.Approx dim pos).isSome ↔ (dim < D ∧ pos < data.GetSampleCount) := by
  refine ⟨_, BuildAveragingFold_MixTailArr data cls shuffle D rand, rfl, rfl, ?_⟩
  intro dim pos
  simp only []
  cases hb : hasBaseline data
  · simp only [Bool.false_eq_true, if_false, approxAt_zeroBuffer]
    by_cases h : dim < D ∧ pos < data.GetSampleCount
    · simp [h]
    · simp [h]
  · simp only [if_true, approxAt_InitFromBaseline, approxAt_zeroBuffer]
    by_cases h : dim < D ∧ pos < data.GetSampleCount
    · simp [h]
    · simp [h]

/-- C5 fails when held-out samples exist: with one learn sample out of two samples the
single window has `TailFinish == 1`, not `2`. -/
theorem averaging_tail_finish_is_learn_count :
    oneLearnSample.LearnSampleCount = 1 ∧ oneLearnSample.GetSampleCount = 2 ∧
      (BuildAveragingFold oneLearnSample [] false 1 id).MixTailArr.map
        (fun w => (w.MixCount, w.TailFinish)) = [(1, 1)] := by
  decide

/-- C6: for a learn fold built by `BuildLearnFold` with baseline predictions present
(multiplier above one, fuel for `N` iterations), every window `w`, every dimension
`dim < D` and every position `pos`: when `w.MixCount ≤ pos < w.TailFinish`, the cell
`w.Approx[dim][pos]` exists and holds the value `Baseline[i][dim]` of the dataset, read
in the original order at the sample `i = LearnPermutation[pos]`; when
`pos < w.MixCount`, `w.Approx[dim][pos]` is the default value `0`. -/
theorem learn_fold_baseline_on_tail (fuel : Nat) (data : TTrainData)
    (cls : List TTargetClassifier) (shuffle : Bool) (B D : Nat) (m : ℚ)
    (rand : TRestorableFastRng64) (hm : 1 < m) (hrand : ShufflePermutes rand)
    (hfuel : data.LearnSampleCount ≤ fuel) (hbase : hasBaseline data = true) :
    ∃ ff, BuildLearnFold fuel data cls shuffle B D m rand = some ff ∧
      ∀ w ∈ ff.MixTailArr, ∀ dim pos : Nat, dim < D →
        (w.MixCount ≤ (pos : Int) → (pos : Int) < w.TailFinish →
          ∃ (i : Nat) (value : TDouble), ff.LearnPermutation[pos]? = some i ∧
            approxAt w.Approx dim pos = some value ∧
            ∀ (row : List TDouble) (b : TDouble), data.Baseline[i]? = some row →
              row[dim]? = some b → value = b) ∧
        ((pos : Int) < w.MixCount → approxAt w.Approx dim pos = some 0) := by
  obtain ⟨ff, hff, hperm, hs, hall⟩ :=
    BuildLearnFold_returns fuel data cls shuffle B D m rand hm hrand hfuel
  refine ⟨ff, hff, ?_⟩
  intro w hw dim pos hdim
  obtain ⟨l0, hl0, hl0N, rfl⟩ := hall w hw
  have hb := IsSchedule.bounds _ _ hs _ hw
  have hlen : ff.LearnPermutation.length = data.LearnSampleCount := by
    rw [hperm]; exact learnPermutation_length _ B shuffle rand hrand
  have hA : (makeMixTail data ff.LearnPermutation D m l0).Approx =
      InitFromBaseline l0 (makeMixTail data ff.LearnPermutation D m l0).TailFinish
        data.Baseline ff.LearnPermutation
        (zeroBuffer D (makeMixTail data ff.LearnPermutation D m l0).TailFinish.toNat) := by
    simp [makeMixTail, hbase]
  rw [hA, approxAt_InitFromBaseline, approxAt_zeroBuffer]
  rw [makeMixTail_MixCount] at hb ⊢
  generalize (makeMixTail data ff.LearnPermutation D m l0).TailFinish = tf at hb ⊢
  constructor
  · intro h1 h2
    have hpos : pos < ff.LearnPermutation.length := by omega
    have hc1 : l0.toNat ≤ pos ∧ pos < tf.toNat := by omega
    have hc2 : dim < D ∧ pos < tf.toNat := ⟨hdim, by omega⟩
    refine ⟨ff.LearnPermutation[pos], baselineAt data.Baseline ff.LearnPermutation[pos] dim,
      List.getElem?_eq_getElem hpos, ?_, ?_⟩
    · rw [if_pos hc1, if_pos hc2, if_pos hpos]
      simp [List.getD_eq_getElem?_getD, List.getElem?_eq_getElem hpos]
    · intro row b hrow hcell
      simp [baselineAt, List.getD_eq_getElem?_getD, hrow, hcell]
  · intro h1
    have hc1 : ¬ (l0.toNat ≤ pos ∧ pos < tf.toNat) := by omega
    have hc2 : dim < D ∧ pos < tf.toNat := ⟨hdim, by omega⟩
    rw [if_neg hc1, if_pos hc2]

theorem learn_fold_baseline_on_tail_witness :
    (1 : ℚ) < 3 / 2 ∧ hasBaseline sampleData = true ∧
      ∃ ff, BuildLearnFold 7 sampleData [] true 3 2 (3 / 2) List.reverse = some ff ∧
        ff.LearnPermutation = [6, 3, 4, 5, 0, 1, 2] ∧
        ∃ w ∈ ff.MixTailArr, w.MixCount = 3 ∧ w.TailFinish = 5 ∧
          w.Approx = [[0, 0, 0, 60, 10], [0, 0, 0, 61, 11]] ∧
          approxAt w.Approx 1 3 = some 61 ∧ approxAt w.Approx 0 4 = some 10 ∧
          approxAt w.Approx 1 2 = some 0 := by
  refine ⟨by norm_num, by decide, ?_⟩
  obtain ⟨ff, hff, hall⟩ :=
    learn_fold_baseline_on_tail 7 sampleData [] true 3 2 (3 / 2) List.reverse
      (by norm_num) (fun v => List.reverse_perm v) (by decide) (by decide)
  obtain ⟨hperm, hws⟩ := sampleData_learnFold ff hff
  have hmem : ({ MixCount := 3, TailFinish := 5
                 Approx := [[0, 0, 0, 60, 10], [0, 0, 0, 61, 11]]
                 Derivatives := [[0, 0, 0, 0, 0], [0, 0, 0, 0, 0]]
                 WeightedDer := [[0, 0, 0, 0, 0], [0, 0, 0, 0, 0]] } : TMixTail) ∈
      ff.MixTailArr := by
    rw [hws]
    simp [sampleWindows]
  refine ⟨ff, hff, hperm, _, hmem, rfl, rfl, rfl, ?_, ?_, ?_⟩
  · obtain ⟨i, value, hi, hcell, hval⟩ := (hall _ hmem 1 3 (by decide)).1 (by decide) (by decide)
    rw [hperm] at hi
    have hi5 : i = 5 := by simpa using hi.symm
    subst hi5
    rw [hcell, hval [60, 61] 61 rfl rfl]
  · obtain ⟨i, value, hi, hcell, hval⟩ := (hall _ hmem 0 4 (by decide)).1 (by decide) (by decide)
    rw [hperm] at hi
    have hi0 : i = 0 := by simpa using hi.symm
    subst hi0
    rw [hcell, hval [10, 11] 10 rfl rfl]
  · exact (hall _ hmem 1 2 (by decide)).2 (by decide)

/-- C7: for the fold built by `BuildAveragingFold` with baseline predictions present,
learn sample count `L` and total sample count `M`, the single window has, for every
dimension `dim < D` and every position `pos < M`, `Approx[dim][pos]` equal to the
baseline value of dimension `dim` at the sample `LearnPermutation[pos]` when `pos < L`
and at the sample `pos` when `pos ≥ L`: the whole range `[0, M)` is initialised. -/
theorem averaging_fold_baseline_everywhere (data : TTrainData)
    (cls : List TTargetClassifier) (shuffle : Bool) (D : Nat) (rand : TRestorableFastRng64)
    (hrand : ShufflePermutes rand) (hbase : hasBaseline data = true) :
    ∃ w, (BuildAveragingFold data cls shuffle D rand).MixTailArr = [w] ∧
      ∀ dim pos : Nat, dim < D → pos < data.GetSampleCount →
        (pos < data.LearnSampleCount →
          ∃ i, (BuildAveragingFold data cls shuffle D rand).LearnPermutation[pos]? = some i ∧
            approxAt w.Approx dim pos = some (baselineAt data.Baseline i dim)) ∧
        (data.LearnSampleCount ≤ pos →
          approxAt w.Approx dim pos = some (baselineAt data.Baseline pos dim)) := by
  refine ⟨_, BuildAveragingFold_MixTailArr data cls shuffle D rand, ?_⟩
  intro dim pos hdim hpos
  have hlen : (BuildAveragingFold data cls shuffle D rand).LearnPermutation.length =
      data.LearnSampleCount := by
    rw [(averaging_permutation_perm data cls shuffle D rand hrand).length_eq,
      List.length_range]
  simp only [hbase, if_true, approxAt_InitFromBaseline, approxAt_zeroBuffer]
  have hc1 : (0 : Int).toNat ≤ pos ∧ pos < ((data.GetSampleCount : Nat) : Int).toNat := by
    simp only [Int.toNat_zero, Int.toNat_ofNat]
    omega
  have hc2 : dim < D ∧ pos < data.GetSampleCount := ⟨hdim, hpos⟩
  rw [if_pos hc1, if_pos hc2]
  constructor
  · intro h
    have hp : pos < (BuildAveragingFold data cls shuffle D rand).LearnPermutation.length := by
      omega
    refine ⟨_, List.getElem?_eq_getElem hp, ?_⟩
    rw [if_pos hp]
    simp [List.getD_eq_getElem?_getD, List.getElem?_eq_getElem hp]
  · intro h
    have hp : ¬ pos < (BuildAveragingFold data cls shuffle D rand).LearnPermutation.length := by
      omega
    rw [if_neg hp]
    rfl

theorem averaging_fold_baseline_everywhere_witness :
    ShufflePermutes List.reverse ∧ hasBaseline sampleData = true ∧
      ∃ w, (BuildAveragingFold sampleData [] true 2 List.reverse).MixTailArr = [w] ∧
        approxAt w.Approx 1 8 = some 91 ∧ approxAt w.Approx 0 0 = some 70 :=
  ⟨fun v => List.reverse_perm v, by decide,
    (averaging_fold_baseline_everywhere sampleData [] true 2 List.reverse
      (fun v => List.reverse_perm v) (by decide)).elim
      (fun w h => ⟨w, h.1,
        ((h.2 1 8 (by decide) (by decide)).2 (by decide)).trans (by decide),
        ((h.2 0 0 (by decide) (by decide)).1 (by decide)).elim
          (fun i hi => hi.2.trans (by
            have h6 : i = 6 := Option.some.inj (hi.1.symm.trans (by decide))
            subst h6
            decide))⟩)⟩

/-- C8: `SelectMinBatchSize N` is `1` when `N ≤ 500` and `min(100, floor(N / 50))` when
`N > 500`, for every integer `N`; `SelectMinBatchSize 600 = 12`,
`SelectMinBatchSize 100 = 1`, `SelectMinBatchSize 5000 = 100`; and
`1 ≤ SelectMinBatchSize N ≤ N` for every `N ≥ 1`. -/
theorem select_min_batch_size_values :
    (∀ N : Int, SelectMinBatchSize N = if N ≤ 500 then 1 else min 100 (N / 50)) ∧
      SelectMinBatchSize 600 = 12 ∧ SelectMinBatchSize 100 = 1 ∧
      SelectMinBatchSize 5000 = 100 ∧
      ∀ N : Int, 1 ≤ N → 1 ≤ SelectMinBatchSize N ∧ SelectMinBatchSize N ≤ N :=
  ⟨SelectMinBatchSize_eq, by decide, by decide, by decide, SelectMinBatchSize_bounds⟩

theorem select_min_batch_size_values_witness :
    (1 : Int) ≤ 777 ∧ 1 ≤ SelectMinBatchSize 777 ∧ SelectMinBatchSize 777 ≤ 777 :=
  ⟨by decide, select_min_batch_size_values.2.2.2.2 777 (by decide)⟩

/-- C9: for every fold `f` and every fold `g` with the same number of windows (`g = f`
included, or `f` with its `Approx` values overwritten after the save), loading into `g`
the stream written by `SaveApproxes` on `f` throws nothing, reads exactly what was
written, and leaves the `Approx` buffers of the windows of `g` equal, window by window,
to those `f` had when it was saved. -/
theorem checkpoint_round_trip (f g : TFold) (rest : TStream)
    (hcount : g.MixTailArr.length = f.MixTailArr.length) :
    (g.LoadApproxes (f.SaveApproxes [] ++ rest)).Error = none ∧
      (g.LoadApproxes (f.SaveApproxes [] ++ rest)).Rest = rest ∧
      (g.LoadApproxes (f.SaveApproxes [] ++ rest)).Fold.MixTailArr.map (fun w => w.Approx) =
        f.MixTailArr.map (fun w => w.Approx) := by
  have hload : g.LoadApproxes (f.SaveApproxes [] ++ rest) =
      loadLoop f.MixTailArr.length 0 g
        (f.MixTailArr.flatMap (fun w => SaveBuffer [] w.Approx) ++ rest) := by
    rw [SaveApproxes_eq]
    simp only [List.nil_append, List.cons_append, TFold.LoadApproxes, LoadUi64, hcount, if_true]
  obtain ⟨h1, h2, h3⟩ := loadLoop_saved f.MixTailArr 0 g rest
  rw [hload]
  refine ⟨h1, h2, ?_⟩
  apply List.ext_getElem?
  intro k
  rw [List.getElem?_map, List.getElem?_map, h3 k]
  by_cases hk : k < f.MixTailArr.length
  · have hc : 0 ≤ k ∧ k < 0 + f.MixTailArr.length ∧ k < g.MixTailArr.length := by omega
    rw [if_pos hc]
    simp [List.getD_eq_getElem?_getD, List.getElem?_eq_getElem hk]
  · have hc : ¬ (0 ≤ k ∧ k < 0 + f.MixTailArr.length ∧ k < g.MixTailArr.length) := by omega
    rw [if_neg hc, List.getElem?_eq_none (by omega : g.MixTailArr.length ≤ k),
      List.getElem?_eq_none (by omega : f.MixTailArr.length ≤ k)]

theorem checkpoint_round_trip_witness :
    liveFold.MixTailArr.length = savedFold.MixTailArr.length ∧
      (liveFold.LoadApproxes (savedFold.SaveApproxes [] ++ [])).Error = none ∧
      (liveFold.LoadApproxes (savedFold.SaveApproxes [] ++ [])).Fold.MixTailArr.map
        (fun w => w.Approx) = [[[0, 7], [0, 8]], [[0, 0, 9], [0, 0, 4]]] :=
  have h := checkpoint_round_trip savedFold liveFold [] (by decide)
  ⟨by decide, h.1, h.2.2.trans (by decide)⟩

/-- C10: for every fold `g` and every stream whose leading window count differs from
the number of windows of `g`, `LoadApproxes` fails with `SchemaMismatch` and leaves the
fold as it was (every window keeps its `Approx`, `Derivatives`, `WeightedDer`,
`MixCount` and `TailFinish`); and when the counts are equal `LoadApproxes` does not
raise this error. -/
theorem load_rejects_other_window_count (g : TFold) (count : Nat) (rest : TStream) :
    (count ≠ g.MixTailArr.length →
        (g.LoadApproxes (count :: rest)).Error = some .SchemaMismatch ∧
          (g.LoadApproxes (count :: rest)).Fold = g) ∧
      (count = g.MixTailArr.length →
        (g.LoadApproxes (count :: rest)).Error ≠ some .SchemaMismatch) := by
  constructor
  · intro h
    simp [TFold.LoadApproxes, LoadUi64, h]
  · intro h
    simp only [TFold.LoadApproxes, LoadUi64, h, if_true]
    exact loadLoop_error _ _ _ _

theorem load_rejects_other_window_count_witness :
    3 ≠ liveFold.MixTailArr.length ∧
      (liveFold.LoadApproxes (3 :: savedFold.SaveApproxes [])).Error = some .SchemaMismatch ∧
      (liveFold.LoadApproxes (3 :: savedFold.SaveApproxes [])).Fold = liveFold ∧
      (liveFold.LoadApproxes (2 :: [1, 0])).Error ≠ some .SchemaMismatch :=
  have h := load_rejects_other_window_count liveFold 3 (savedFold.SaveApproxes [])
  ⟨by decide, (h.1 (by decide)).1, (h.1 (by decide)).2,
    (load_rejects_other_window_count liveFold 2 [1, 0]).2 (by decide)⟩

/-! ## The statistic tables -/

theorem hashFind_eq_none (table : TOnlineCTRHash) (proj : TProjection) :
    hashFind table proj = none ↔ ∀ e ∈ table, e.1 ≠ proj := by
  simp [hashFind, List.find?_eq_none]

theorem hashFind_some_mem (table : TOnlineCTRHash) (proj : TProjection) (r : TOnlineCTR)
    (h : hashFind table proj = some r) : (proj, r) ∈ table := by
  simp only [hashFind, Option.map_eq_some'] at h
  obtain ⟨e, he, hr⟩ := h
  have h1 := List.find?_some he
  have h2 := List.mem_of_find?_eq_some he
  simp only [beq_iff_eq] at h1
  rw [← h1, ← hr]
  exact h2

theorem hashFind_of_mem (table : TOnlineCTRHash) (proj : TProjection) (r : TOnlineCTR)
    (hnodup : (table.map (fun e => e.1)).Nodup) (h : (proj, r) ∈ table) :
    hashFind table proj = some r := by
  cases hf : hashFind table proj with
  | none => exact absurd rfl ((hashFind_eq_none table proj).mp hf _ h)
  | some r2 =>
    have h2 := hashFind_some_mem table proj r2 hf
    have := List.inj_on_of_nodup_map hnodup h2 h rfl
    rw [(Prod.mk.inj this).2]

theorem GetCtrs_setCtrs_same (ff : TFold) (proj : TProjection) (table : TOnlineCTRHash) :
    (ff.setCtrs proj table).GetCtrs proj = table := by
  cases h : HasSingleFeature proj <;> simp [TFold.setCtrs, TFold.GetCtrs, h]

theorem setCtrs_single (ff : TFold) (proj : TProjection) (table : TOnlineCTRHash)
    (h : HasSingleFeature proj = true) :
    ff.setCtrs proj table = { ff with OnlineSingleCtrs := table } := by
  simp [TFold.setCtrs, h]

theorem setCtrs_multi (ff : TFold) (proj : TProjection) (table : TOnlineCTRHash)
    (h : HasSingleFeature proj = false) :
    ff.setCtrs proj table = { ff with OnlineCTR := table } := by
  simp [TFold.setCtrs, h]

theorem GetCtrs_single (ff : TFold) (proj : TProjection) (h : HasSingleFeature proj = true) :
    ff.GetCtrs proj = ff.OnlineSingleCtrs := by
  simp [TFold.GetCtrs, h]

theorem GetCtrs_multi (ff : TFold) (proj : TProjection) (h : HasSingleFeature proj = false) :
    ff.GetCtrs proj = ff.OnlineCTR := by
  simp [TFold.GetCtrs, h]

/-- In well-formed tables every key of the table chosen for `proj` is routed like
`proj`, and the table holds no key twice. -/
theorem TablesOk.getCtrs (ff : TFold) (h : TablesOk ff) (proj : TProjection) :
    (∀ e ∈ ff.GetCtrs proj, HasSingleFeature e.1 = HasSingleFeature proj) ∧
      ((ff.GetCtrs proj).map (fun e => e.1)).Nodup := by
  obtain ⟨h1, h2, h3, h4⟩ := h
  cases hp : HasSingleFeature proj
  · rw [GetCtrs_multi ff proj hp]
    exact ⟨h2, h4⟩
  · rw [GetCtrs_single ff proj hp]
    exact ⟨h1, h3⟩

/-- Replacing the table chosen for `proj` by one whose keys are routed like `proj` and
are pairwise different keeps the tables well formed. -/
theorem TablesOk.setCtrs (ff : TFold) (h : TablesOk ff) (proj : TProjection)
    (table : TOnlineCTRHash)
    (hroute : ∀ e ∈ table, HasSingleFeature e.1 = HasSingleFeature proj)
    (hnodup : (table.map (fun e => e.1)).Nodup) : TablesOk (ff.setCtrs proj table) := by
  obtain ⟨h1, h2, h3, h4⟩ := h
  cases hp : HasSingleFeature proj
  · rw [setCtrs_multi ff proj table hp]
    rw [hp] at hroute
    exact ⟨h1, hroute, h3, hnodup⟩
  · rw [setCtrs_single ff proj table hp]
    rw [hp] at hroute
    exact ⟨hroute, h2, hnodup, h4⟩

theorem hashIndex_table (table : TOnlineCTRHash) (proj : TProjection) :
    (hashIndex table proj).2 =
      if (hashFind table proj).isSome then table
      else table ++ [(proj, ({} : TOnlineCTR))] := by
  unfold hashIndex
  cases hashFind table proj <;> simp

theorem TablesOk.getCtrRef (ff : TFold) (h : TablesOk ff) (proj : TProjection) :
    TablesOk (ff.GetCtrRef proj).2 := by
  obtain ⟨hroute, hnodup⟩ := h.getCtrs ff proj
  simp only [TFold.GetCtrRef]
  apply TablesOk.setCtrs ff h proj
  · intro e he
    rw [hashIndex_table] at he
    cases hf : hashFind (ff.GetCtrs proj) proj with
    | some r =>
      rw [hf] at he
      exact hroute e (by simpa using he)
    | none =>
      rw [hf] at he
      simp only [Option.isSome_none, Bool.false_eq_true, if_false, List.mem_append,
        List.mem_singleton] at he
      rcases he with he | he
      · exact hroute e he
      · rw [he]
  · rw [hashIndex_table]
    cases hf : hashFind (ff.GetCtrs proj) proj with
    | some r => simpa using hnodup
    | none =>
      simp only [Option.isSome_none, Bool.false_eq_true, if_false, List.map_append,
        List.map_cons, List.map_nil]
      apply List.Nodup.append hnodup (List.nodup_singleton _)
      intro k hk hk2
      rw [List.mem_singleton] at hk2
      obtain ⟨e, he, hek⟩ := List.mem_map.mp hk
      exact (hashFind_eq_none _ _).mp hf e he (by rw [hek, hk2])

theorem map_fst_hashAssign (table : TOnlineCTRHash) (proj : TProjection) (value : TOnlineCTR) :
    (hashAssign table proj value).map (fun e => e.1) = table.map (fun e => e.1) := by
  simp only [hashAssign, List.map_map]
  apply List.map_congr_left
  intro e _
  simp only [Function.comp]
  split <;> rfl

theorem TablesOk.assignCtrRef (ff : TFold) (h : TablesOk ff) (proj : TProjection)
    (value : TOnlineCTR) : TablesOk (ff.AssignCtrRef proj value) := by
  have h1 := h.getCtrRef ff proj
  obtain ⟨hroute, hnodup⟩ := h1.getCtrs _ proj
  simp only [TFold.AssignCtrRef]
  apply TablesOk.setCtrs _ h1 proj
  · intro e he
    have hk : e.1 ∈ (hashAssign ((ff.GetCtrRef proj).2.GetCtrs proj) proj value).map
        (fun e => e.1) := List.mem_map_of_mem _ he
    rw [map_fst_hashAssign] at hk
    obtain ⟨e2, he2, hek⟩ := List.mem_map.mp hk
    rw [← hek]
    exact hroute e2 he2
  · rw [map_fst_hashAssign]
    exact hnodup

theorem TablesOk.trimOnlineCTR (ff : TFold) (h : TablesOk ff) (maxOnlineCTRFeatures : Nat) :
    TablesOk (ff.TrimOnlineCTR maxOnlineCTRFeatures) := by
  unfold TFold.TrimOnlineCTR
  split
  · obtain ⟨h1, _, h3, _⟩ := h
    exact ⟨h1, by simp, h3, by simp⟩
  · exact h

theorem eraseCtr_single (ff : TFold) (proj : TProjection) (h : HasSingleFeature proj = true) :
    ff.eraseCtr proj =
      { ff with OnlineSingleCtrs := ff.OnlineSingleCtrs.filter (fun e => !(e.1 == proj)) } := by
  simp [TFold.eraseCtr, TFold.setCtrs, TFold.GetCtrs, hashErase, h]

theorem eraseCtr_multi (ff : TFold) (proj : TProjection) (h : HasSingleFeature proj = false) :
    ff.eraseCtr proj =
      { ff with OnlineCTR := ff.OnlineCTR.filter (fun e => !(e.1 == proj)) } := by
  simp [TFold.eraseCtr, TFold.setCtrs, TFold.GetCtrs, hashErase, h]

/-- The last loop of `DropEmptyCTRs` over any list of projections: each table loses
the entries whose key is in the list and is routed to that table. -/
theorem foldl_eraseCtr (ps : List TProjection) : ∀ ff : TFold,
    (ps.foldl TFold.eraseCtr ff).OnlineSingleCtrs =
        ff.OnlineSingleCtrs.filter
          (fun e => !(ps.any (fun p => HasSingleFeature p && e.1 == p))) ∧
      (ps.foldl TFold.eraseCtr ff).OnlineCTR =
        ff.OnlineCTR.filter
          (fun e => !(ps.any (fun p => !HasSingleFeature p && e.1 == p))) := by
  induction ps with
  | nil => intro ff; simp
  | cons p ps ih =>
    intro ff
    rw [List.foldl_cons]
    obtain ⟨h1, h2⟩ := ih (ff.eraseCtr p)
    rw [h1, h2]
    cases hp : HasSingleFeature p
    · rw [eraseCtr_multi ff p hp]
      simp only [List.filter_filter, List.any_cons, hp]
      constructor
      · apply List.filter_congr
        intro e _
        simp
      · apply List.filter_congr
        intro e _
        simp [Bool.and_comm]
    · rw [eraseCtr_single ff p hp]
      simp only [List.filter_filter, List.any_cons, hp]
      constructor
      · apply List.filter_congr
        intro e _
        simp [Bool.and_comm]
      · apply List.filter_congr
        intro e _
        simp

theorem mem_emptyProjections (ff : TFold) (proj : TProjection) :
    proj ∈ ff.emptyProjections ↔
      (∃ e ∈ ff.OnlineSingleCtrs, e.2.Feature.isEmpty = true ∧ e.1 = proj) ∨
        (∃ e ∈ ff.OnlineCTR, e.2.Feature.isEmpty = true ∧ e.1 = proj) := by
  simp only [TFold.emptyProjections, List.mem_append, List.mem_map, List.mem_filter]
  constructor
  · rintro (⟨e, ⟨h1, h2⟩, h3⟩ | ⟨e, ⟨h1, h2⟩, h3⟩)
    · exact Or.inl ⟨e, h1, h2, h3⟩
    · exact Or.inr ⟨e, h1, h2, h3⟩
  · rintro (⟨e, h1, h2, h3⟩ | ⟨e, h1, h2, h3⟩)
    · exact Or.inl ⟨e, ⟨h1, h2⟩, h3⟩
    · exact Or.inr ⟨e, ⟨h1, h2⟩, h3⟩

/-- On well-formed tables `DropEmptyCTRs` removes from each table exactly the entries
with an empty record: every collected key is erased from the table it was found in. -/
theorem DropEmptyCTRs_eq_filter (ff : TFold) (h : TablesOk ff) :
    ff.DropEmptyCTRs.OnlineSingleCtrs =
        ff.OnlineSingleCtrs.filter (fun e => !e.2.Feature.isEmpty) ∧
      ff.DropEmptyCTRs.OnlineCTR = ff.OnlineCTR.filter (fun e => !e.2.Feature.isEmpty) := by
  obtain ⟨h1, h2, h3, h4⟩ := h
  obtain ⟨e1, e2⟩ := foldl_eraseCtr ff.emptyProjections ff
  unfold TFold.DropEmptyCTRs
  rw [e1, e2]
  constructor
  · apply List.filter_congr
    intro e he
    congr 1
    rw [Bool.eq_iff_iff, List.any_eq_true]
    constructor
    · rintro ⟨p, hp, hpe⟩
      simp only [Bool.and_eq_true, beq_iff_eq] at hpe
      rcases (mem_emptyProjections ff p).mp hp with ⟨e0, he0, hempty, hk⟩ | ⟨e0, he0, _, hk⟩
      · have : e0 = e := List.inj_on_of_nodup_map h3 he0 he (by rw [hk, hpe.2])
        rw [← this]
        exact hempty
      · have := h2 e0 he0
        rw [hk, hpe.1] at this
        exact absurd this (by decide)
    · intro hempty
      exact ⟨e.1, (mem_emptyProjections ff e.1).mpr (Or.inl ⟨e, he, hempty, rfl⟩),
        by simp [h1 e he]⟩
  · apply List.filter_congr
    intro e he
    congr 1
    rw [Bool.eq_iff_iff, List.any_eq_true]
    constructor
    · rintro ⟨p, hp, hpe⟩
      simp only [Bool.and_eq_true, Bool.not_eq_true', beq_iff_eq] at hpe
      rcases (mem_emptyProjections ff p).mp hp with ⟨e0, he0, _, hk⟩ | ⟨e0, he0, hempty, hk⟩
      · have := h1 e0 he0
        rw [hk, hpe.1] at this
        exact absurd this (by decide)
      · have : e0 = e := List.inj_on_of_nodup_map h4 he0 he (by rw [hk, hpe.2])
        rw [← this]
        exact hempty
    · intro hempty
      exact ⟨e.1, (mem_emptyProjections ff e.1).mpr (Or.inr ⟨e, he, hempty, rfl⟩),
        by simp [h2 e he]⟩

theorem TablesOk.dropEmptyCTRs (ff : TFold) (h : TablesOk ff) : TablesOk ff.DropEmptyCTRs := by
  obtain ⟨e1, e2⟩ := DropEmptyCTRs_eq_filter ff h
  obtain ⟨h1, h2, h3, h4⟩ := h
  refine ⟨?_, ?_, ?_, ?_⟩
  · intro e he
    rw [e1] at he
    exact h1 e (List.mem_filter.mp he).1
  · intro e he
    rw [e2] at he
    exact h2 e (List.mem_filter.mp he).1
  · rw [e1]
    exact List.Nodup.sublist ((List.filter_sublist _).map _) h3
  · rw [e2]
    exact List.Nodup.sublist ((List.filter_sublist _).map _) h4

/-- Every reachable fold state has well-formed tables. -/
theorem TablesReachable.tablesOk (ff : TFold) (h : TablesReachable ff) : TablesOk ff := by
  induction h with
  | fresh ff h1 h2 =>
    unfold TablesOk
    rw [h1, h2]
    simp
  | getCtrRef ff proj _ ih => exact ih.getCtrRef ff proj
  | assignCtrRef ff proj value _ ih => exact ih.assignCtrRef ff proj value
  | dropEmptyCTRs ff _ ih => exact ih.dropEmptyCTRs ff
  | trimOnlineCTR ff n _ ih => exact ih.trimOnlineCTR ff n

theorem setCtrs_GetCtrs (ff : TFold) (proj : TProjection) :
    ff.setCtrs proj (ff.GetCtrs proj) = ff := by
  cases h : HasSingleFeature proj <;> simp [TFold.setCtrs, TFold.GetCtrs, h]

theorem hashFind_isSome (table : TOnlineCTRHash) (proj : TProjection)
    (h : ∃ e ∈ table, e.1 = proj) : ∃ r, hashFind table proj = some r := by
  cases hf : hashFind table proj with
  | some r => exact ⟨r, rfl⟩
  | none =>
    obtain ⟨e, he, hk⟩ := h
    exact absurd hk ((hashFind_eq_none table proj).mp hf e he)

/-- The call `GetCtrRef(proj)` on a key that is present: the stored record, the fold as
it was. -/
theorem GetCtrRef_found (ff : TFold) (proj : TProjection) (r : TOnlineCTR)
    (h : hashFind (ff.GetCtrs proj) proj = some r) : ff.GetCtrRef proj = (r, ff) := by
  simp only [TFold.GetCtrRef, hashIndex, h, setCtrs_GetCtrs]

/-- The call `GetCtrRef(proj)` on a key that is absent: a default record, appended to
the table chosen for the key. -/
theorem GetCtrRef_absent (ff : TFold) (proj : TProjection)
    (h : ∀ e ∈ ff.GetCtrs proj, e.1 ≠ proj) :
    ff.GetCtrRef proj =
      (({} : TOnlineCTR), ff.setCtrs proj (ff.GetCtrs proj ++ [(proj, ({} : TOnlineCTR))])) := by
  simp only [TFold.GetCtrRef, hashIndex, (hashFind_eq_none _ _).mpr h]

theorem hashFind_append_new (table : TOnlineCTRHash) (proj : TProjection) (r : TOnlineCTR)
    (h : ∀ e ∈ table, e.1 ≠ proj) : hashFind (table ++ [(proj, r)]) proj = some r := by
  have h0 : List.find? (fun e => e.1 == proj) table = none := by
    rw [List.find?_eq_none]
    intro e he
    simpa using h e he
  simp [hashFind, List.find?_append, h0]

/-- After `GetCtrRef(proj)` the lookup `GetCtr(proj)` finds the record that was
returned. -/
theorem GetCtr_after_GetCtrRef (ff : TFold) (proj : TProjection) :
    (ff.GetCtrRef proj).2.GetCtr proj = .ok (ff.GetCtrRef proj).1 := by
  cases hf : hashFind (ff.GetCtrs proj) proj with
  | some r =>
    rw [GetCtrRef_found ff proj r hf]
    simp [TFold.GetCtr, hashAt, hf]
  | none =>
    have h := (hashFind_eq_none _ _).mp hf
    rw [GetCtrRef_absent ff proj h]
    simp [TFold.GetCtr, hashAt, GetCtrs_setCtrs_same, hashFind_append_new _ _ _ h]

/-- Get-or-create of pairwise different multi-feature projections that the multi-feature
table does not hold yet appends one default record for each of them and leaves the
single-feature table alone. -/
theorem foldl_GetCtrRef_multi (projs : List TProjection) : ∀ ff : TFold,
    projs.Nodup → (∀ p ∈ projs, HasSingleFeature p = false) →
    (∀ p ∈ projs, ∀ e ∈ ff.OnlineCTR, e.1 ≠ p) →
    (projs.foldl (fun f p => (f.GetCtrRef p).2) ff).OnlineCTR =
        ff.OnlineCTR ++ projs.map (fun p => (p, ({} : TOnlineCTR))) ∧
      (projs.foldl (fun f p => (f.GetCtrRef p).2) ff).OnlineSingleCtrs =
        ff.OnlineSingleCtrs := by
  induction projs with
  | nil => intro ff _ _ _; simp
  | cons p ps ih =>
    intro ff hnodup hmulti hnew
    have hp : HasSingleFeature p = false := hmulti p (List.mem_cons_self _ _)
    have habs : ∀ e ∈ ff.GetCtrs p, e.1 ≠ p := by
      rw [GetCtrs_multi ff p hp]
      exact hnew p (List.mem_cons_self _ _)
    rw [List.foldl_cons, GetCtrRef_absent ff p habs, setCtrs_multi _ _ _ hp,
      GetCtrs_multi ff p hp]
    obtain ⟨hnp, hnps⟩ := List.nodup_cons.mp hnodup
    obtain ⟨h1, h2⟩ := ih { ff with OnlineCTR := ff.OnlineCTR ++ [(p, ({} : TOnlineCTR))] }
      hnps (fun q hq => hmulti q (List.mem_cons_of_mem _ hq)) (by
        intro q hq e he
        simp only [List.mem_append, List.mem_singleton] at he
        rcases he with he | he
        · exact hnew q (List.mem_cons_of_mem _ hq) e he
        · rw [he]
          intro hpq
          exact hnp (by rw [show p = q from hpq]; exact hq))
    rw [h1, h2]
    simp

/-- The permuted targets: one entry for each position of the permutation. -/
theorem AssignPermuted_getElem? (ff : TFold) (source : List TFloat) (z i : Nat)
    (hz : ff.LearnPermutation[z]? = some i) :
    (ff.AssignPermuted source)[z]? = some (source.getD i 0) := by
  have hlt : z < ff.LearnPermutation.length := by
    by_contra hn
    rw [List.getElem?_eq_none (by omega)] at hz
    exact absurd hz (by simp)
  simp [TFold.AssignPermuted, List.getElem?_range hlt, List.getD_eq_getElem?_getD, hz]

theorem AssignTarget_idempotent (ff : TFold) (target : List TFloat)
    (cls : List TTargetClassifier) :
    (ff.AssignTarget target cls).AssignTarget target cls = ff.AssignTarget target cls := by
  simp [TFold.AssignTarget, TFold.AssignPermuted]

/-! ## Properties of the specification: tables and targets -/

/-- C11: for every fold state, `TrimOnlineCTR(maxEntries)` leaves the multi-feature
table empty when it held more than `maxEntries` entries and unchanged otherwise, and
leaves the single-feature table unchanged in both cases. In particular, after
`GetCtrRef` of `k + 1` pairwise different multi-feature projections into an empty
multi-feature table (which then holds `k + 1` entries), `TrimOnlineCTR(k)` leaves the
multi-feature table with size `0`. -/
theorem trim_online_ctr_all_or_nothing (ff : TFold) (maxEntries : Nat) :
    (ff.OnlineCTR.length > maxEntries → (ff.TrimOnlineCTR maxEntries).OnlineCTR = []) ∧
      (ff.OnlineCTR.length ≤ maxEntries →
        (ff.TrimOnlineCTR maxEntries).OnlineCTR = ff.OnlineCTR) ∧
      (ff.TrimOnlineCTR maxEntries).OnlineSingleCtrs = ff.OnlineSingleCtrs ∧
      ∀ projs : List TProjection, ff.OnlineCTR = [] → projs.Nodup →
        (∀ p ∈ projs, HasSingleFeature p = false) → projs.length = maxEntries + 1 →
        (projs.foldl (fun f p => (f.GetCtrRef p).2) ff).OnlineCTR.length = maxEntries + 1 ∧
          ((projs.foldl (fun f p => (f.GetCtrRef p).2) ff).TrimOnlineCTR
            maxEntries).OnlineCTR.length = 0 ∧
          ((projs.foldl (fun f p => (f.GetCtrRef p).2) ff).TrimOnlineCTR
            maxEntries).OnlineSingleCtrs = ff.OnlineSingleCtrs := by
  have htrim : ∀ (g : TFold) (n : Nat),
      (g.OnlineCTR.length > n → (g.TrimOnlineCTR n).OnlineCTR = []) ∧
      (g.OnlineCTR.length ≤ n → (g.TrimOnlineCTR n).OnlineCTR = g.OnlineCTR) ∧
      (g.TrimOnlineCTR n).OnlineSingleCtrs = g.OnlineSingleCtrs := by
    intro g n
    unfold TFold.TrimOnlineCTR
    refine ⟨fun h => by rw [if_pos h], fun h => by rw [if_neg (by omega)], ?_⟩
    split <;> rfl
  refine ⟨(htrim ff maxEntries).1, (htrim ff maxEntries).2.1, (htrim ff maxEntries).2.2, ?_⟩
  intro projs hempty hnodup hmulti hlen
  obtain ⟨h1, h2⟩ := foldl_GetCtrRef_multi projs ff hnodup hmulti (by
    intro p _ e he
    rw [hempty] at he
    simp at he)
  have hsize : (projs.foldl (fun f p => (f.GetCtrRef p).2) ff).OnlineCTR.length
      = maxEntries + 1 := by
    rw [h1, hempty]
    simp [hlen]
  refine ⟨hsize, ?_, ?_⟩
  · rw [(htrim _ maxEntries).1 (by omega)]
    rfl
  · rw [(htrim _ maxEntries).2.2, h2]

theorem trim_online_ctr_all_or_nothing_witness :
    tablesFold.OnlineCTR.length > 1 ∧ (tablesFold.TrimOnlineCTR 1).OnlineCTR = [] ∧
      (([pairProj, mixedProj].foldl (fun f p => (f.GetCtrRef p).2)
        ({} : TFold)).TrimOnlineCTR 1).OnlineCTR.length = 0 :=
  ⟨by decide, (trim_online_ctr_all_or_nothing tablesFold 1).1 (by decide),
    ((trim_online_ctr_all_or_nothing ({} : TFold) 1).2.2.2 [pairProj, mixedProj] rfl
      (by decide) (by decide) rfl).2.1⟩

/-- C12: for every fold state reached from empty tables through `GetCtrRef` (writes
through the returned reference included), `DropEmptyCTRs` and `TrimOnlineCTR`, after
`DropEmptyCTRs` neither table holds an entry whose record is empty, and every entry
whose record was not empty before the call is still in the same table with the same
record. -/
theorem drop_empty_ctrs_prunes (ff : TFold) (h : TablesReachable ff) :
    (∀ e ∈ ff.DropEmptyCTRs.OnlineSingleCtrs, e.2.Feature ≠ []) ∧
      (∀ e ∈ ff.DropEmptyCTRs.OnlineCTR, e.2.Feature ≠ []) ∧
      (∀ e ∈ ff.OnlineSingleCtrs, e.2.Feature ≠ [] → e ∈ ff.DropEmptyCTRs.OnlineSingleCtrs) ∧
      (∀ e ∈ ff.OnlineCTR, e.2.Feature ≠ [] → e ∈ ff.DropEmptyCTRs.OnlineCTR) := by
  obtain ⟨e1, e2⟩ := DropEmptyCTRs_eq_filter ff h.tablesOk
  rw [e1, e2]
  refine ⟨?_, ?_, ?_, ?_⟩
  · intro e he
    have := (List.mem_filter.mp he).2
    simpa using this
  · intro e he
    have := (List.mem_filter.mp he).2
    simpa using this
  · intro e he hne
    exact List.mem_filter.mpr ⟨he, by simpa using hne⟩
  · intro e he hne
    exact List.mem_filter.mpr ⟨he, by simpa using hne⟩

theorem drop_empty_ctrs_prunes_witness :
    TablesReachable tablesFold ∧
      tablesFold.OnlineCTR = [(pairProj, {}), (mixedProj, filledCtr)] ∧
      (∀ e ∈ tablesFold.DropEmptyCTRs.OnlineCTR, e.2.Feature ≠ []) ∧
      (mixedProj, filledCtr) ∈ tablesFold.DropEmptyCTRs.OnlineCTR :=
  have hr : TablesReachable tablesFold :=
    TablesReachable.assignCtrRef _ _ _ (TablesReachable.getCtrRef _ _
      (TablesReachable.assignCtrRef _ _ _ (TablesReachable.fresh _ rfl rfl)))
  ⟨hr, by decide, (drop_empty_ctrs_prunes tablesFold hr).2.1,
    (drop_empty_ctrs_prunes tablesFold hr).2.2.2 (mixedProj, filledCtr) (by decide)
      (by decide)⟩

/-- C13: for every projection key, `GetCtrRef(key)` works on the single-feature table
when the key has exactly one underlying feature (`BinFeatures` count plus `CatFeatures`
count equal to `1`) and on the multi-feature table otherwise. If the key is present in
that table the stored record is returned and the fold, both tables included, is
unchanged; otherwise a default-constructed record is inserted under the key in that
table and returned, the other entries of that table and the whole other table staying
as they were. -/
theorem get_ctr_ref_routes (ff : TFold) (key : TProjection) :
    (key.BinFeatures.length + key.CatFeatures.length = 1 →
        ((∃ e ∈ ff.OnlineSingleCtrs, e.1 = key) →
          ∃ r, (key, r) ∈ ff.OnlineSingleCtrs ∧ ff.GetCtrRef key = (r, ff)) ∧
        ((∀ e ∈ ff.OnlineSingleCtrs, e.1 ≠ key) →
          ff.GetCtrRef key = (({} : TOnlineCTR),
            { ff with OnlineSingleCtrs :=
                ff.OnlineSingleCtrs ++ [(key, ({} : TOnlineCTR))] }))) ∧
      (key.BinFeatures.length + key.CatFeatures.length ≠ 1 →
        ((∃ e ∈ ff.OnlineCTR, e.1 = key) →
          ∃ r, (key, r) ∈ ff.OnlineCTR ∧ ff.GetCtrRef key = (r, ff)) ∧
        ((∀ e ∈ ff.OnlineCTR, e.1 ≠ key) →
          ff.GetCtrRef key = (({} : TOnlineCTR),
            { ff with OnlineCTR := ff.OnlineCTR ++ [(key, ({} : TOnlineCTR))] }))) := by
  constructor
  · intro hone
    have hs : HasSingleFeature key = true := by simp [HasSingleFeature, hone]
    have hg := GetCtrs_single ff key hs
    constructor
    · intro hpresent
      obtain ⟨r, hr⟩ := hashFind_isSome _ _ hpresent
      exact ⟨r, hashFind_some_mem _ _ _ hr, GetCtrRef_found ff key r (by rw [hg]; exact hr)⟩
    · intro habsent
      rw [GetCtrRef_absent ff key (by rw [hg]; exact habsent), hg,
        setCtrs_single _ _ _ hs]
  · intro hmany
    have hs : HasSingleFeature key = false := by simp [HasSingleFeature, hmany]
    have hg := GetCtrs_multi ff key hs
    constructor
    · intro hpresent
      obtain ⟨r, hr⟩ := hashFind_isSome _ _ hpresent
      exact ⟨r, hashFind_some_mem _ _ _ hr, GetCtrRef_found ff key r (by rw [hg]; exact hr)⟩
    · intro habsent
      rw [GetCtrRef_absent ff key (by rw [hg]; exact habsent), hg,
        setCtrs_multi _ _ _ hs]

theorem get_ctr_ref_routes_witness :
    pairProj.BinFeatures.length + pairProj.CatFeatures.length ≠ 1 ∧
      (∃ e ∈ tablesFold.OnlineCTR, e.1 = pairProj) ∧
      ∃ r, (pairProj, r) ∈ tablesFold.OnlineCTR ∧
        tablesFold.GetCtrRef pairProj = (r, tablesFold) :=
  ⟨by decide, ⟨(pairProj, {}), by decide, rfl⟩,
    ((get_ctr_ref_routes tablesFold pairProj).2 (by decide)).1
      ⟨(pairProj, {}), by decide, rfl⟩⟩

/-- C14: for every fold state and projection key, `GetCtr(key)` fails with `NotFound`
exactly when the key is absent from the table chosen for it by the single/multi-feature
predicate, and otherwise returns the record stored under the key in that table; the
method is `const`, so the tables after the call are the tables before it; and after
`GetCtrRef(key)` the lookup `GetCtr(key)` succeeds with the record `GetCtrRef`
returned. -/
theorem get_ctr_not_found_iff_absent (ff : TFold) (key : TProjection) :
    (ff.GetCtrs key =
        if key.BinFeatures.length + key.CatFeatures.length = 1 then ff.OnlineSingleCtrs
        else ff.OnlineCTR) ∧
      (ff.GetCtr key = .error .NotFound ↔ ∀ e ∈ ff.GetCtrs key, e.1 ≠ key) ∧
      ((∃ e ∈ ff.GetCtrs key, e.1 = key) →
        ∃ r, ff.GetCtr key = .ok r ∧ (key, r) ∈ ff.GetCtrs key) ∧
      (ff.GetCtrRef key).2.GetCtr key = .ok (ff.GetCtrRef key).1 := by
  refine ⟨?_, ?_, ?_, GetCtr_after_GetCtrRef ff key⟩
  · simp [TFold.GetCtrs, HasSingleFeature]
  · rw [← hashFind_eq_none]
    unfold TFold.GetCtr hashAt
    cases hashFind (ff.GetCtrs key) key <;> simp
  · intro hpresent
    obtain ⟨r, hr⟩ := hashFind_isSome _ _ hpresent
    refine ⟨r, ?_, hashFind_some_mem _ _ _ hr⟩
    simp [TFold.GetCtr, hashAt, hr]

theorem get_ctr_not_found_iff_absent_witness :
    (∃ e ∈ tablesFold.GetCtrs mixedProj, e.1 = mixedProj) ∧
      (∃ r, tablesFold.GetCtr mixedProj = .ok r ∧ (mixedProj, r) ∈ tablesFold.GetCtrs mixedProj) ∧
      (∀ e ∈ tablesFold.DropEmptyCTRs.GetCtrs pairProj, e.1 ≠ pairProj) ∧
      tablesFold.DropEmptyCTRs.GetCtr pairProj = .error .NotFound :=
  ⟨⟨(mixedProj, filledCtr), by decide, rfl⟩,
    (get_ctr_not_found_iff_absent tablesFold mixedProj).2.2.1
      ⟨(mixedProj, filledCtr), by decide, rfl⟩,
    by decide,
    (get_ctr_not_found_iff_absent tablesFold.DropEmptyCTRs pairProj).2.1.mpr (by decide)⟩

/-- C15: for every permutation `P` of `[0, N)` held by the fold, every target vector of
length `N` (or longer) and every list of classifiers, after `AssignTarget` the fold has
`LearnTarget[z] == target[P[z]]` for every `z < N`, `LearnTargetClass` has one row of
length `N` for each classifier with `LearnTargetClass[c][z] == classify_c(target[P[z]])`,
and `TargetClassesCount[c] == classCount_c` for every classifier `c`; running it again
with the same inputs leaves the fold unchanged. -/
theorem assign_target_permutes (ff : TFold) (target : List TFloat)
    (cls : List TTargetClassifier) (N : Nat)
    (hperm : ff.LearnPermutation.Perm (List.range N)) (htarget : N ≤ target.length) :
    (∀ z, z < N → ∃ i t, ff.LearnPermutation[z]? = some i ∧ target[i]? = some t ∧
        (ff.AssignTarget target cls).LearnTarget[z]? = some t ∧
        ∀ (c : Nat) (k : TTargetClassifier), cls[c]? = some k →
          ((ff.AssignTarget target cls).LearnTargetClass[c]?).bind (fun row => row[z]?) =
            some (k.GetTargetClass t)) ∧
      (ff.AssignTarget target cls).LearnTarget.length = N ∧
      (ff.AssignTarget target cls).LearnTargetClass.length = cls.length ∧
      (∀ row ∈ (ff.AssignTarget target cls).LearnTargetClass, row.length = N) ∧
      (ff.AssignTarget target cls).TargetClassesCount.length = cls.length ∧
      (∀ (c : Nat) (k : TTargetClassifier), cls[c]? = some k →
        (ff.AssignTarget target cls).TargetClassesCount[c]? = some k.GetClassesCount) ∧
      (ff.AssignTarget target cls).AssignTarget target cls = ff.AssignTarget target cls := by
  have hlen : ff.LearnPermutation.length = N := by rw [hperm.length_eq, List.length_range]
  refine ⟨?_, ?_, ?_, ?_, ?_, ?_, AssignTarget_idempotent ff target cls⟩
  · intro z hz
    have hzl : z < ff.LearnPermutation.length := by omega
    have hi : ff.LearnPermutation[z] < N :=
      List.mem_range.mp ((hperm.mem_iff).mp (List.getElem_mem hzl))
    have hit : ff.LearnPermutation[z] < target.length := by omega
    have hP : ff.LearnPermutation[z]? = some ff.LearnPermutation[z] :=
      List.getElem?_eq_getElem hzl
    have hT : (ff.AssignPermuted target)[z]? = some target[ff.LearnPermutation[z]] := by
      rw [AssignPermuted_getElem? ff target z _ hP]
      simp [List.getD_eq_getElem?_getD, List.getElem?_eq_getElem hit]
    refine ⟨_, _, hP, List.getElem?_eq_getElem hit, hT, ?_⟩
    intro c k hk
    simp only [TFold.AssignTarget, List.getElem?_map, hk, Option.map_some', Option.some_bind,
      List.getElem?_range hzl, List.getD_eq_getElem?_getD, hT, Option.getD_some]
  · simp [TFold.AssignTarget, TFold.AssignPermuted, hlen]
  · simp [TFold.AssignTarget]
  · intro row hrow
    simp only [TFold.AssignTarget, List.mem_map] at hrow
    obtain ⟨k, _, hk⟩ := hrow
    rw [← hk]
    simp [hlen]
  · simp [TFold.AssignTarget]
  · intro c k hk
    simp [TFold.AssignTarget, List.getElem?_map, hk]

theorem assign_target_permutes_witness :
    ([2, 0, 1] : List Nat).Perm (List.range 3) ∧
      (({ LearnPermutation := [2, 0, 1] } : TFold).AssignTarget [3, 9, 5]
        [borderClassifier]).LearnTarget.length = 3 ∧
      (({ LearnPermutation := [2, 0, 1] } : TFold).AssignTarget [3, 9, 5]
        [borderClassifier]).TargetClassesCount[0]? = some 2 :=
  have h := assign_target_permutes ({ LearnPermutation := [2, 0, 1] } : TFold) [3, 9, 5]
    [borderClassifier] 3 (by decide) (by decide)
  ⟨by decide, h.2.1, h.2.2.2.2.2.1 0 borderClassifier rfl⟩

/-- C19: in every fold state reached from a fold with empty tables by any sequence of
`GetCtrRef` (writes through the returned reference included), `GetCtr` (which is `const`),
`DropEmptyCTRs` and `TrimOnlineCTR` calls, every key stored in `OnlineSingleCtrs` has
exactly one underlying feature and no key stored in `OnlineCTR` has; hence no projection
is in both tables, `GetCtrs` routes every stored key to the table it is stored in, and
`DropEmptyCTRs` erases every collected key from the table it was found in: each table
loses exactly its entries with an empty record. -/
theorem tables_partition_keys (ff : TFold) (h : TablesReachable ff) :
    (∀ e ∈ ff.OnlineSingleCtrs, e.1.BinFeatures.length + e.1.CatFeatures.length = 1) ∧
      (∀ e ∈ ff.OnlineCTR, e.1.BinFeatures.length + e.1.CatFeatures.length ≠ 1) ∧
      (∀ key, ¬ ((∃ e ∈ ff.OnlineSingleCtrs, e.1 = key) ∧ (∃ e ∈ ff.OnlineCTR, e.1 = key))) ∧
      (∀ e ∈ ff.OnlineSingleCtrs, ff.GetCtrs e.1 = ff.OnlineSingleCtrs) ∧
      (∀ e ∈ ff.OnlineCTR, ff.GetCtrs e.1 = ff.OnlineCTR) ∧
      ff.DropEmptyCTRs.OnlineSingleCtrs =
        ff.OnlineSingleCtrs.filter (fun e => !e.2.Feature.isEmpty) ∧
      ff.DropEmptyCTRs.OnlineCTR = ff.OnlineCTR.filter (fun e => !e.2.Feature.isEmpty) := by
  have hok := h.tablesOk
  obtain ⟨e1, e2⟩ := DropEmptyCTRs_eq_filter ff hok
  obtain ⟨h1, h2, _, _⟩ := hok
  refine ⟨?_, ?_, ?_, ?_, ?_, e1, e2⟩
  · intro e he
    simpa [HasSingleFeature] using h1 e he
  · intro e he
    simpa [HasSingleFeature] using h2 e he
  · rintro key ⟨⟨e, he, hk⟩, ⟨e0, he0, hk0⟩⟩
    have a := h1 e he
    have b := h2 e0 he0
    rw [hk] at a
    rw [hk0, a] at b
    exact absurd b (by decide)
  · intro e he
    exact GetCtrs_single ff e.1 (h1 e he)
  · intro e he
    exact GetCtrs_multi ff e.1 (h2 e he)

theorem tables_partition_keys_witness :
    TablesReachable tablesFold.DropEmptyCTRs ∧
      (∀ e ∈ tablesFold.DropEmptyCTRs.OnlineCTR,
        e.1.BinFeatures.length + e.1.CatFeatures.length ≠ 1) ∧
      tablesFold.DropEmptyCTRs.OnlineSingleCtrs = [(singleProj, filledCtr)] :=
  have hr : TablesReachable tablesFold.DropEmptyCTRs :=
    TablesReachable.dropEmptyCTRs _ (TablesReachable.assignCtrRef _ _ _
      (TablesReachable.getCtrRef _ _
        (TablesReachable.assignCtrRef _ _ _ (TablesReachable.fresh _ rfl rfl))))
  ⟨hr, (tables_partition_keys tablesFold.DropEmptyCTRs hr).2.1, by decide⟩

/-! ## Shape of the buffers and progress of the schedule loop -/

theorem map_length_setApprox (a : List (List TDouble)) (d p : Nat) (v : TDouble) :
    (setApprox a d p v).map List.length = a.map List.length := by
  apply List.ext_getElem?
  intro k
  simp only [setApprox, List.getElem?_map, List.getElem?_set]
  by_cases hk : d = k
  · subst hk
    by_cases hlt : d < a.length
    · simp [hlt, List.getD_eq_getElem?_getD, List.getElem?_eq_getElem hlt]
    · simp [hlt, List.getElem?_eq_none (by omega : a.length ≤ d)]
  · simp [hk]

theorem map_length_foldl_dims (p : Nat) (val : Nat → TDouble) : ∀ (ds : List Nat)
    (a : List (List TDouble)),
    (ds.foldl (fun a dim => setApprox a dim p (val dim)) a).map List.length =
      a.map List.length := by
  intro ds
  induction ds with
  | nil => intro a; rfl
  | cons d ds ih =>
    intro a
    rw [List.foldl_cons, ih, map_length_setApprox]

theorem map_length_initDoc (baseline : List (List TDouble)) (perm : List Nat)
    (a : List (List TDouble)) (p : Nat) :
    (initDoc baseline perm a p).map List.length = a.map List.length := by
  unfold initDoc
  exact map_length_foldl_dims p _ _ a

/-- The writes of `InitFromBaseline` change no length of the buffer. -/
theorem map_length_InitFromBaseline (beginIdx endIdx : Int) (baseline : List (List TDouble))
    (perm : List Nat) (a : List (List TDouble)) :
    (InitFromBaseline beginIdx endIdx baseline perm a).map List.length = a.map List.length := by
  unfold InitFromBaseline
  generalize List.range' beginIdx.toNat (endIdx.toNat - beginIdx.toNat) = ps
  induction ps generalizing a with
  | nil => rfl
  | cons p ps ih => rw [List.foldl_cons, ih, map_length_initDoc]

theorem hasShape_of_map_length (a : List (List TDouble)) (D n : Nat)
    (h : a.map List.length = List.replicate D n) : HasShape a D n := by
  constructor
  · have := congrArg List.length h
    simpa using this
  · intro row hrow
    have hm : row.length ∈ a.map List.length := List.mem_map_of_mem _ hrow
    rw [h] at hm
    exact (List.mem_replicate.mp hm).2

theorem hasShape_zeroBuffer (D n : Nat) : HasShape (zeroBuffer D n) D n :=
  hasShape_of_map_length _ D n (by simp [zeroBuffer])

theorem allZero_zeroBuffer (D n : Nat) : AllZero (zeroBuffer D n) := by
  intro row hrow x hx
  rw [zeroBuffer] at hrow
  rw [(List.mem_replicate.mp hrow).2] at hx
  exact (List.mem_replicate.mp hx).2

theorem hasShape_InitFromBaseline (beginIdx endIdx : Int) (baseline : List (List TDouble))
    (perm : List Nat) (D n : Nat) :
    HasShape (InitFromBaseline beginIdx endIdx baseline perm (zeroBuffer D n)) D n :=
  hasShape_of_map_length _ D n (by
    rw [map_length_InitFromBaseline]
    simp [zeroBuffer])

/-- The buffers of one window of the learn fold. -/
theorem makeMixTail_buffers (data : TTrainData) (perm : List Nat) (D : Nat) (m : ℚ)
    (l : Int) :
    HasShape (makeMixTail data perm D m l).Approx D
        (makeMixTail data perm D m l).TailFinish.toNat ∧
      (makeMixTail data perm D m l).Derivatives =
        zeroBuffer D (makeMixTail data perm D m l).TailFinish.toNat ∧
      (makeMixTail data perm D m l).WeightedDer =
        zeroBuffer D (makeMixTail data perm D m l).TailFinish.toNat ∧
      (hasBaseline data = false → (makeMixTail data perm D m l).Approx =
        zeroBuffer D (makeMixTail data perm D m l).TailFinish.toNat) := by
  refine ⟨?_, rfl, rfl, ?_⟩
  · cases hb : hasBaseline data
    · simp only [makeMixTail, hb, Bool.false_eq_true, if_false]
      exact hasShape_zeroBuffer _ _
    · simp only [makeMixTail, hb, if_true]
      exact hasShape_InitFromBaseline _ _ _ _ _ _
  · intro hb
    simp [makeMixTail, hb]

theorem SelectMinBatchSize_le (N : Int) : SelectMinBatchSize N ≤ 100 := by
  rw [SelectMinBatchSize_eq]
  by_cases h : N ≤ 500
  · rw [if_pos h]; omega
  · rw [if_neg h]
    exact min_le_left _ _

theorem ceil_roundedProduct_le (m : ℚ) (hm0 : 0 ≤ m) (hm1 : m ≤ 1) (l : Int) (hl : 0 ≤ l)
    (hl53 : l < 2 ^ 53) :
    0 ≤ ⌈roundedProduct l m⌉ ∧ ⌈roundedProduct l m⌉ ≤ l := by
  have hl0 : (0 : ℚ) ≤ (l : ℚ) := by exact_mod_cast hl
  constructor
  · apply Int.ceil_nonneg
    unfold roundedProduct
    split
    · exact (roundToDouble_mul_le m hm0 hm1 l hl hl53).1
    · exact mul_nonneg hl0 hm0
  · rw [Int.ceil_le]
    exact roundedProduct_le m hm0 hm1 l hl hl53

/-- With a multiplier between zero and one the loop makes no progress: once below the
sample count, `leftPartLen` stays below it and no amount of fuel is enough.  The loop
starts at most at `100`, far below `2 ^ 53`, where every `int` is a double. -/
theorem mixTailLoop_diverges (data : TTrainData) (perm : List Nat) (D : Nat) (m : ℚ)
    (hm0 : 0 ≤ m) (hm1 : m ≤ 1) : ∀ (fuel : Nat) (l : Int), 0 ≤ l → l < 2 ^ 53 →
      l < (data.LearnSampleCount : Int) → mixTailLoop data perm D m fuel l = none := by
  intro fuel
  induction fuel with
  | zero =>
    intro l _ _ hl
    simp [mixTailLoop, hl]
  | succ fuel ih =>
    intro l hl0 hl53 hl
    have hc := ceil_roundedProduct_le m hm0 hm1 l hl0 hl53
    have htf := makeMixTail_TailFinish data perm D m l
    have h0 : 0 ≤ (makeMixTail data perm D m l).TailFinish := by
      rw [htf]
      exact le_min hc.1 (by omega)
    have hle : (makeMixTail data perm D m l).TailFinish ≤ l := by
      rw [htf]
      exact le_trans (min_le_left _ _) hc.2
    rw [mixTailLoop_succ data perm D m fuel l hl, ih _ h0 (by omega) (by omega)]
    rfl

/-- The bound on the fuel can be the distance the loop has to cover. -/
theorem BuildLearnFold_returns_of_fuel (fuel : Nat) (data : TTrainData)
    (cls : List TTargetClassifier) (shuffle : Bool) (B D : Nat) (m : ℚ)
    (rand : TRestorableFastRng64) (hm : 1 < m) (hrand : ShufflePermutes rand)
    (hfuel : (data.LearnSampleCount : Int) - SelectMinBatchSize data.LearnSampleCount ≤ fuel) :
    ∃ ff, BuildLearnFold fuel data cls shuffle B D m rand = some ff ∧
      ff.LearnPermutation = learnPermutation data.LearnSampleCount shuffle B rand ∧
      IsSchedule data.LearnSampleCount (SelectMinBatchSize data.LearnSampleCount)
        ff.MixTailArr ∧
      ∀ w ∈ ff.MixTailArr, ∃ l0 : Int, 1 ≤ l0 ∧ l0 < data.LearnSampleCount ∧
        w = makeMixTail data ff.LearnPermutation D m l0 := by
  have hb := SelectMinBatchSize_pos data.LearnSampleCount
  obtain ⟨ws, hws, hs, hall⟩ := mixTailLoop_schedule data
    (learnPermutation data.LearnSampleCount shuffle B rand) D m hm
    (learnPermutation_length _ B shuffle rand hrand) fuel
    (SelectMinBatchSize data.LearnSampleCount) hb hfuel
  obtain ⟨ff, hff⟩ := BuildLearnFold_of_loop fuel data cls shuffle B D m rand ws hws
  obtain ⟨h1, h2⟩ := BuildLearnFold_eq_some fuel data cls shuffle B D m rand ff hff
  rw [hws, Option.some.injEq] at h2
  subst h2
  exact ⟨ff, hff, h1, hs, by rw [h1]; exact hall⟩

theorem IsSchedule.length_le {N : Int} : ∀ (ws : List TMixTail) (l : Int),
    IsSchedule N l ws → (ws.length : Int) ≤ max (N - l) 0 := by
  intro ws
  induction ws with
  | nil => intro l _; simp
  | cons w ws ih =>
    intro l h
    obtain ⟨h1, _, h3, h4, h5⟩ := h
    have := ih _ h5
    have hmax : max (N - w.TailFinish) 0 = N - w.TailFinish := max_eq_left (by omega)
    have hmax2 : max (N - l) 0 = N - l := max_eq_left (by omega)
    rw [hmax] at this
    rw [hmax2, List.length_cons]
    push_cast
    omega

/-- The tails of a schedule, one after the other, list every position from the start of
the schedule up to the sample count once. -/
theorem IsSchedule.tails {N : Nat} : ∀ (ws : List TMixTail) (l : Int), 0 ≤ l →
    IsSchedule N l ws →
    ws.flatMap (fun w => List.range' w.MixCount.toNat (w.TailFinish - w.MixCount).toNat) =
      List.range' l.toNat (N - l.toNat) := by
  intro ws
  induction ws with
  | nil =>
    intro l hl h
    simp only [IsSchedule] at h
    have : N - l.toNat = 0 := by omega
    rw [this]
    rfl
  | cons w ws ih =>
    intro l hl h
    obtain ⟨h1, h2, h3, h4, h5⟩ := h
    rw [List.flatMap_cons, ih _ (by omega) h5, h2]
    have e1 : w.TailFinish.toNat = l.toNat + (w.TailFinish - l).toNat := by omega
    have e2 : N - l.toNat = (N - w.TailFinish.toNat) + (w.TailFinish - l).toNat := by omega
    rw [e1, List.range'_append_1, ← e1, e2]

theorem IsSchedule.head {N : Int} (ws : List TMixTail) (l : Int) (h : IsSchedule N l ws)
    (w : TMixTail) (hw : ws.head? = some w) : w.MixCount = l := by
  cases ws with
  | nil => simp at hw
  | cons v vs =>
    simp only [List.head?_cons, Option.some.injEq] at hw
    rw [← hw]
    exact h.2.1

/-! ## Properties of the specification: configuration, ranges, shapes, progress -/

/-- C16, as the code has it: `BuildLearnFold` checks nothing at construction and raises
no error. For a growth multiplier `m ≤ 1` it returns a fold with an empty window
schedule when the learn sample count is at most one; for `0 ≤ m ≤ 1` and two or more
samples its schedule loop runs without making progress and never returns, whatever the
fuel. -/
theorem build_learn_fold_checks_nothing (data : TTrainData)
    (cls : List TTargetClassifier) (shuffle : Bool) (B D : Nat) (m : ℚ)
    (rand : TRestorableFastRng64) (hm1 : m ≤ 1) :
    (data.LearnSampleCount ≤ 1 → ∀ fuel : Nat,
        ∃ ff, BuildLearnFold fuel data cls shuffle B D m rand = some ff ∧
          ff.MixTailArr = []) ∧
      (0 ≤ m → 2 ≤ data.LearnSampleCount → ∀ fuel : Nat,
        BuildLearnFold fuel data cls shuffle B D m rand = none) := by
  constructor
  · intro hN fuel
    have hdone := mixTailLoop_done data
      (learnPermutation data.LearnSampleCount shuffle B rand) D m fuel
      (SelectMinBatchSize data.LearnSampleCount) (by
        have := SelectMinBatchSize_pos data.LearnSampleCount
        omega)
    obtain ⟨ff, hff⟩ := BuildLearnFold_of_loop fuel data cls shuffle B D m rand [] hdone
    refine ⟨ff, hff, ?_⟩
    have h2 := (BuildLearnFold_eq_some fuel data cls shuffle B D m rand ff hff).2
    rw [hdone, Option.some.injEq] at h2
    exact h2.symm
  · intro hm0 hN fuel
    cases hb : BuildLearnFold fuel data cls shuffle B D m rand with
    | none => rfl
    | some ff =>
      have h2 := (BuildLearnFold_eq_some fuel data cls shuffle B D m rand ff hb).2
      have hpos := SelectMinBatchSize_pos data.LearnSampleCount
      have hlt := SelectMinBatchSize_lt data.LearnSampleCount (by omega)
      have hle := SelectMinBatchSize_le data.LearnSampleCount
      rw [mixTailLoop_diverges data _ D m hm0 hm1 fuel _ (by omega) (by omega) hlt] at h2
      exact absurd h2 (by simp)

theorem build_learn_fold_checks_nothing_witness :
    (1 : ℚ) ≤ 1 ∧ (0 : ℚ) ≤ 1 ∧ 2 ≤ sampleData.LearnSampleCount ∧
      BuildLearnFold 1000 sampleData [] false 1 2 1 id = none ∧
      ∃ ff, BuildLearnFold 0 oneLearnSample [] true 3 2 (1 / 2) List.reverse = some ff ∧
        ff.MixTailArr = [] :=
  ⟨by norm_num, by norm_num, by decide,
    (build_learn_fold_checks_nothing sampleData [] false 1 2 1 id (by norm_num)).2
      (by norm_num) (by decide) 1000,
    (build_learn_fold_checks_nothing oneLearnSample [] true 3 2 (1 / 2) List.reverse
      (by norm_num)).1 (by decide) 0⟩

/-- C16 fails: with the multiplier `1` and a single learn sample `BuildLearnFold` raises
nothing and returns a fold. -/
theorem build_learn_fold_accepts_multiplier_one :
    (1 : ℚ) ≤ 1 ∧ (BuildLearnFold 0 oneLearnSample [] false 1 1 1 id).isSome = true := by
  refine ⟨le_refl _, ?_⟩
  simp [BuildLearnFold, TFold.AssignTarget, oneLearnSample, mixTailLoop, SelectMinBatchSize]

/-- C17: every window of a fold built by `BuildLearnFold` (`N` samples, multiplier above
one, fuel for `N` iterations) has `0 ≤ MixCount ≤ TailFinish ≤ N`, and the window of a
fold built by `BuildAveragingFold` from a dataset whose `L` learn samples are among its
`M` samples has `0 ≤ MixCount ≤ TailFinish ≤ M`. -/
theorem window_range_invariant (fuel : Nat) (data : TTrainData)
    (cls : List TTargetClassifier) (shuffle : Bool) (B D : Nat) (m : ℚ)
    (rand : TRestorableFastRng64) (hm : 1 < m) (hrand : ShufflePermutes rand)
    (hfuel : data.LearnSampleCount ≤ fuel)
    (hcount : data.LearnSampleCount ≤ data.GetSampleCount) :
    (∃ ff, BuildLearnFold fuel data cls shuffle B D m rand = some ff ∧
        ∀ w ∈ ff.MixTailArr,
          0 ≤ w.MixCount ∧ w.MixCount ≤ w.TailFinish ∧
            w.TailFinish ≤ (data.LearnSampleCount : Int)) ∧
      ∀ w ∈ (BuildAveragingFold data cls shuffle D rand).MixTailArr,
        0 ≤ w.MixCount ∧ w.MixCount ≤ w.TailFinish ∧
          w.TailFinish ≤ (data.GetSampleCount : Int) := by
  constructor
  · obtain ⟨ff, hff, _, hs, _⟩ :=
      BuildLearnFold_returns fuel data cls shuffle B D m rand hm hrand hfuel
    refine ⟨ff, hff, ?_⟩
    intro w hw
    have hb := IsSchedule.bounds _ _ hs w hw
    have hpos := SelectMinBatchSize_pos data.LearnSampleCount
    exact ⟨by omega, by omega, hb.2.2⟩
  · intro w hw
    rw [BuildAveragingFold_MixTailArr, List.mem_singleton] at hw
    subst hw
    simp only []
    omega

theorem window_range_invariant_witness :
    (1 : ℚ) < 3 / 2 ∧ sampleData.LearnSampleCount ≤ sampleData.GetSampleCount ∧
      (∃ ff, BuildLearnFold 7 sampleData [] true 3 2 (3 / 2) List.reverse = some ff ∧
        ff.MixTailArr.map (fun w => (w.MixCount, w.TailFinish)) =
          [(1, 2), (2, 3), (3, 5), (5, 7)] ∧
        ∀ w ∈ ff.MixTailArr, 0 ≤ w.MixCount ∧ w.MixCount ≤ w.TailFinish ∧ w.TailFinish ≤ 7) ∧
      (BuildAveragingFold sampleData [] true 2 List.reverse).MixTailArr.map
        (fun w => (w.MixCount, w.TailFinish)) = [(7, 7)] ∧
      ∀ w ∈ (BuildAveragingFold sampleData [] true 2 List.reverse).MixTailArr,
        0 ≤ w.MixCount ∧ w.MixCount ≤ w.TailFinish ∧ w.TailFinish ≤ 9 := by
  obtain ⟨⟨ff, hff, hlearn⟩, havg⟩ :=
    window_range_invariant 7 sampleData [] true 3 2 (3 / 2) List.reverse (by norm_num)
      (fun v => List.reverse_perm v) (by decide) (by decide)
  refine ⟨by norm_num, by decide, ⟨ff, hff, ?_, hlearn⟩, by decide, havg⟩
  rw [(sampleData_learnFold ff hff).2]
  decide

/-- C18, as the code has it: for every window `w` of a fold produced by `BuildLearnFold`
with approximation dimension `D`, each of `w.Approx`, `w.Derivatives` and
`w.WeightedDer` consists of exactly `D` arrays of length `w.TailFinish`, all elements of
`Derivatives` and `WeightedDer` are `0` and, absent a baseline, so are those of `Approx`.
For the window of a fold produced by `BuildAveragingFold`, `Approx` and `WeightedDer`
consist of `D` arrays of length `M`, the total sample count, `Derivatives` is left
without any array, all elements of `WeightedDer` are `0` and, absent a baseline, so are
those of `Approx`. -/
theorem buffer_shapes (fuel : Nat) (data : TTrainData)
    (cls : List TTargetClassifier) (shuffle : Bool) (B D : Nat) (m : ℚ)
    (rand : TRestorableFastRng64) (hm : 1 < m) (hrand : ShufflePermutes rand)
    (hfuel : data.LearnSampleCount ≤ fuel) :
    (∃ ff, BuildLearnFold fuel data cls shuffle B D m rand = some ff ∧
        ∀ w ∈ ff.MixTailArr, 0 ≤ w.TailFinish ∧
          HasShape w.Approx D w.TailFinish.toNat ∧
          HasShape w.Derivatives D w.TailFinish.toNat ∧ AllZero w.Derivatives ∧
          HasShape w.WeightedDer D w.TailFinish.toNat ∧ AllZero w.WeightedDer ∧
          (hasBaseline data = false → AllZero w.Approx)) ∧
      ∃ w, (BuildAveragingFold data cls shuffle D rand).MixTailArr = [w] ∧
        HasShape w.Approx D data.GetSampleCount ∧
        w.Derivatives = [] ∧
        HasShape w.WeightedDer D data.GetSampleCount ∧ AllZero w.WeightedDer ∧
        (hasBaseline data = false → AllZero w.Approx) := by
  constructor
  · obtain ⟨ff, hff, _, hs, hall⟩ :=
      BuildLearnFold_returns fuel data cls shuffle B D m rand hm hrand hfuel
    refine ⟨ff, hff, ?_⟩
    intro w hw
    have hb := IsSchedule.bounds _ _ hs w hw
    have hpos := SelectMinBatchSize_pos data.LearnSampleCount
    obtain ⟨l0, _, _, rfl⟩ := hall w hw
    obtain ⟨h1, h2, h3, h4⟩ := makeMixTail_buffers data ff.LearnPermutation D m l0
    refine ⟨by omega, h1, ?_, ?_, ?_, ?_, ?_⟩
    · rw [h2]; exact hasShape_zeroBuffer _ _
    · rw [h2]; exact allZero_zeroBuffer _ _
    · rw [h3]; exact hasShape_zeroBuffer _ _
    · rw [h3]; exact allZero_zeroBuffer _ _
    · intro hb0
      rw [h4 hb0]
      exact allZero_zeroBuffer _ _
  · refine ⟨_, BuildAveragingFold_MixTailArr data cls shuffle D rand, ?_, rfl,
      hasShape_zeroBuffer _ _, allZero_zeroBuffer _ _, ?_⟩
    · simp only []
      cases hb : hasBaseline data
      · simp only [Bool.false_eq_true, if_false]
        exact hasShape_zeroBuffer _ _
      · simp only [if_true]
        exact hasShape_InitFromBaseline _ _ _ _ _ _
    · intro hb
      simp only [hb, Bool.false_eq_true, if_false]
      exact allZero_zeroBuffer _ _

theorem buffer_shapes_witness :
    (1 : ℚ) < 3 / 2 ∧ ShufflePermutes List.reverse ∧
      (∃ ff, BuildLearnFold 7 sampleData [] true 3 2 (3 / 2) List.reverse = some ff ∧
        ff.MixTailArr.map
            (fun w => (w.TailFinish, w.Approx.map List.length, w.Derivatives,
              w.WeightedDer)) =
          [(2, [2, 2], [[0, 0], [0, 0]], [[0, 0], [0, 0]]),
           (3, [3, 3], [[0, 0, 0], [0, 0, 0]], [[0, 0, 0], [0, 0, 0]]),
           (5, [5, 5], [[0, 0, 0, 0, 0], [0, 0, 0, 0, 0]], [[0, 0, 0, 0, 0], [0, 0, 0, 0, 0]]),
           (7, [7, 7], [[0, 0, 0, 0, 0, 0, 0], [0, 0, 0, 0, 0, 0, 0]],
             [[0, 0, 0, 0, 0, 0, 0], [0, 0, 0, 0, 0, 0, 0]])] ∧
        ∀ w ∈ ff.MixTailArr, HasShape w.Approx 2 w.TailFinish.toNat ∧
          HasShape w.Derivatives 2 w.TailFinish.toNat ∧ AllZero w.Derivatives ∧
          HasShape w.WeightedDer 2 w.TailFinish.toNat ∧ AllZero w.WeightedDer) ∧
      ∃ w, (BuildAveragingFold sampleData [] true 2 List.reverse).MixTailArr = [w] ∧
        w.TailFinish = 7 ∧ HasShape w.Approx 2 9 ∧ w.Derivatives = [] ∧
        HasShape w.WeightedDer 2 9 := by
  obtain ⟨⟨ff, hff, hlearn⟩, w, hw, h1, h2, h3, _⟩ :=
    buffer_shapes 7 sampleData [] true 3 2 (3 / 2) List.reverse (by norm_num)
      (fun v => List.reverse_perm v) (by decide)
  refine ⟨by norm_num, fun v => List.reverse_perm v, ⟨ff, hff, ?_, ?_⟩, w, hw, ?_, h1, h2, h3⟩
  · rw [(sampleData_learnFold ff hff).2]
    decide
  · intro v hv
    obtain ⟨_, a, b, c, d, e, _⟩ := hlearn v hv
    exact ⟨a, b, c, d, e⟩
  · rw [BuildAveragingFold_MixTailArr, List.cons.injEq] at hw
    rw [← hw.1]
    rfl

/-- C18 fails on the averaging fold: with dimension `1`, one learn sample and two
samples in all, the window has `TailFinish == 1`, its `Approx` array has length `2` and
`Derivatives` holds no array at all. -/
theorem averaging_buffers_differ :
    (BuildAveragingFold oneLearnSample [] false 1 id).MixTailArr.map
      (fun w => (w.TailFinish, w.Approx, w.Derivatives, w.WeightedDer)) =
        [(1, [[0, 0]], [], [[0, 0]])] := by
  decide

/-- C20, as the code has it: for every `N ≥ 0` and every multiplier `m > 1` that is a
double, the loop of `BuildLearnFold` starts at `leftPartLen = SelectMinBatchSize N ≥ 1`,
each iteration creates a window with `MixCount = leftPartLen` and
`TailFinish = min(ceil(p), N) > leftPartLen`, where `p` is the double that the code
computes for `leftPartLen * m` (the exact product rounded to the nearest double, ties to
even), and `TailFinish` is the next `leftPartLen`; the loop terminates after at most
`max(N - SelectMinBatchSize N, 0)` iterations (fuel for that many is enough), and the
tails `[MixCount, TailFinish)` of the windows, one after the other, are exactly the
positions `[SelectMinBatchSize N, N)`. -/
theorem schedule_loop_progress (fuel : Nat) (data : TTrainData)
    (cls : List TTargetClassifier) (shuffle : Bool) (B D : Nat) (m : ℚ)
    (rand : TRestorableFastRng64) (hm : 1 < m) (hd : IsDouble m)
    (hrand : ShufflePermutes rand)
    (hfuel : max ((data.LearnSampleCount : Int) - SelectMinBatchSize data.LearnSampleCount) 0
      ≤ fuel) :
    1 ≤ SelectMinBatchSize data.LearnSampleCount ∧
      ∃ ff, BuildLearnFold fuel data cls shuffle B D m rand = some ff ∧
        (∀ w, ff.MixTailArr.head? = some w →
          w.MixCount = SelectMinBatchSize data.LearnSampleCount) ∧
        (∀ w ∈ ff.MixTailArr,
          w.TailFinish =
              min ⌈roundToDouble ((w.MixCount : ℚ) * m)⌉ (data.LearnSampleCount : Int) ∧
            w.MixCount < w.TailFinish) ∧
        (∀ (i : Nat) (w v : TMixTail), ff.MixTailArr[i]? = some w →
          ff.MixTailArr[i + 1]? = some v → v.MixCount = w.TailFinish) ∧
        (ff.MixTailArr.length : Int) ≤
          max ((data.LearnSampleCount : Int) - SelectMinBatchSize data.LearnSampleCount) 0 ∧
        ff.MixTailArr.flatMap
            (fun w => List.range' w.MixCount.toNat (w.TailFinish - w.MixCount).toNat) =
          List.range' (SelectMinBatchSize data.LearnSampleCount).toNat
            (data.LearnSampleCount - (SelectMinBatchSize data.LearnSampleCount).toNat) := by
  have hpos := SelectMinBatchSize_pos data.LearnSampleCount
  refine ⟨hpos, ?_⟩
  obtain ⟨ff, hff, hperm, hs, hall⟩ :=
    BuildLearnFold_returns_of_fuel fuel data cls shuffle B D m rand hm hrand
      (le_trans (le_max_left _ _) hfuel)
  have hlen : ff.LearnPermutation.length = data.LearnSampleCount := by
    rw [hperm]; exact learnPermutation_length _ B shuffle rand hrand
  refine ⟨ff, hff, IsSchedule.head _ _ hs, ?_, IsSchedule.chained _ _ hs,
    IsSchedule.length_le _ _ hs, IsSchedule.tails _ _ (by omega) hs⟩
  intro w hw
  have hb := IsSchedule.bounds _ _ hs w hw
  obtain ⟨l0, _, _, rfl⟩ := hall w hw
  refine ⟨?_, hb.2.1⟩
  rw [makeMixTail_TailFinish, makeMixTail_MixCount, hlen]
  unfold roundedProduct
  rw [if_pos hd]

theorem schedule_loop_progress_witness :
    (1 : ℚ) < onePointOne ∧ IsDouble onePointOne ∧ ShufflePermutes id ∧
      ∃ ff, BuildLearnFold 510 data520 [] false 1 1 onePointOne id = some ff ∧
        ff.MixTailArr.head?.map (fun w => (w.MixCount, w.TailFinish)) = some (10, 11) ∧
        (ff.MixTailArr.length : Int) ≤ 510 ∧
        ff.MixTailArr.flatMap
            (fun w => List.range' w.MixCount.toNat (w.TailFinish - w.MixCount).toNat) =
          List.range' 10 510 := by
  have hm : (1 : ℚ) < onePointOne := by unfold onePointOne; norm_num
  refine ⟨hm, isDouble_onePointOne, fun v => List.Perm.refl v, ?_⟩
  obtain ⟨_, ff, hff, _, _, _, hlen, htails⟩ :=
    schedule_loop_progress 510 data520 [] false 1 1 onePointOne id hm isDouble_onePointOne
      (fun v => List.Perm.refl v) (by decide)
  have hS : SelectMinBatchSize ((data520.LearnSampleCount : Nat) : Int) = 10 := by decide
  rw [hS] at hlen htails
  exact ⟨ff, hff, data520_first_window 509 ff hff, hlen.trans (by decide), htails⟩

/-- C20 fails twice. For `N == 0` the loop makes no iteration, while
`N - SelectMinBatchSize N` is `-1`. And `TailFinish` is not the ceiling of the exact
product: with 520 samples and the multiplier `1.1` the first window is `(10, 11)`, the
double product `10 * 1.1` being `11`, while the exact product is above `11` and
`min(ceil(10 * m), N)` is `12`. -/
theorem schedule_bound_and_rounded_tail_differ :
    ((BuildLearnFold 0 emptyData [] false 1 1 2 id).map
        (fun ff => (ff.MixTailArr.length : Int)) = some 0 ∧
      (emptyData.LearnSampleCount : Int) - SelectMinBatchSize emptyData.LearnSampleCount
        = -1 ∧
      ¬ ((0 : Int) ≤
        (emptyData.LearnSampleCount : Int) - SelectMinBatchSize emptyData.LearnSampleCount)) ∧
      (1 : ℚ) < onePointOne ∧
      (∃ ff, BuildLearnFold 520 data520 [] false 1 1 onePointOne id = some ff ∧
        ff.MixTailArr.head?.map (fun w => (w.MixCount, w.TailFinish)) = some (10, 11)) ∧
      min ⌈(10 : ℚ) * onePointOne⌉ (data520.LearnSampleCount : Int) = 12 := by
  have hm : (1 : ℚ) < onePointOne := by unfold onePointOne; norm_num
  refine ⟨⟨?_, by decide, by decide⟩, hm, ?_, ?_⟩
  · simp [BuildLearnFold, TFold.AssignTarget, emptyData, mixTailLoop, SelectMinBatchSize]
  · obtain ⟨ff, hff, _⟩ :=
      BuildLearnFold_returns 520 data520 [] false 1 1 onePointOne id hm
        (fun v => List.Perm.refl v) (by decide)
    exact ⟨ff, hff, data520_first_window 519 ff hff⟩
  · rw [ceil_ten_onePointOne]
    decide

end Fold
